import Mathlib

/-
Verification development for the `tree_regularization` repository.

Shallow embedding of:
  * `src/trainer/collate.py` (`VarLengthCollate._measure_array_max_dim`,
    `VarLengthCollate._merge_var_len_array`), modelling torch tensors as
    row-major contiguous buffers together with shapes, and torch's
    `narrow`/`squeeze`/`copy_` view operations as explicit offset/size/stride
    arithmetic on that flat buffer;
  * `src/vocabulary.py` (`WordVocabulary`, `CharVocabulary`), modelling Python
    dicts as association lists with Python's replace-in-place update semantics
    (`len(dict)` = number of keys = list length), Python `sorted(set(...))` as
    insertion sort over a deduplicated list using code-point string order, and
    Python `assert`/`KeyError` failures as `Except` errors.
-/

namespace TreeReg

/-! ### Vocabulary embedding (`src/vocabulary.py`): shared pieces -/

/-- Failure modes of the vocabulary code (Python `AssertionError`, `KeyError`
and `TypeError` sites). -/
inductive VocabError where
  | unknownWord
  | notInitialized
  | keyError
  | typeError
  deriving DecidableEq, Repr

/-- Association-list lookup with decidable key equality (a Python dict
lookup; keys are kept unique by the insertion function below). -/
def alookup [DecidableEq κ] (k : κ) : List (κ × β) → Option β
  | [] => none
  | p :: t => if p.1 = k then some p.2 else alookup k t

/-- Python dict insertion: overwrite the value in place when the key is
present, append a fresh entry otherwise. -/
def insertAssoc [DecidableEq κ] (l : List (κ × β)) (k : κ) (v : β) : List (κ × β) :=
  if (alookup k l).isSome then l.map (fun p => if p.1 = k then (k, v) else p)
  else l ++ [(k, v)]

/-- Insertion of an element into a sorted list. -/
def insertSorted (le : α → α → Bool) (a : α) : List α → List α
  | [] => [a]
  | b :: t => if le a b then a :: b :: t else b :: insertSorted le a t

/-- Insertion sort, modelling Python `sorted`. -/
def sortBy (le : α → α → Bool) (l : List α) : List α :=
  l.foldr (insertSorted le) []

/-- Python code-point comparison of strings (strict `<` on the character
lists). -/
def strLtB : List Char → List Char → Bool
  | [], [] => false
  | [], _ :: _ => true
  | _ :: _, [] => false
  | a :: as, b :: bs =>
    if a.toNat < b.toNat then true
    else if a.toNat = b.toNat then strLtB as bs else false

/-- Non-strict code-point order on strings. -/
def strLe (a b : String) : Bool := !(strLtB b.data a.data)

/-- Python `sorted(set(l))` for strings: deduplicate, then sort ascending. -/
def sortDedup (l : List String) : List String := sortBy strLe l.dedup

/-! ### `WordVocabulary` -/

/-- State of a `WordVocabulary`: the two dicts, the two policy flags, the
unknown-token index resolved by `finalize` (the Python attribute `_unk_index`
does not exist before `finalize`; it is modelled as an `Option` field), and
the `initialized` flag. -/
structure WordVocabulary where
  words : List (String × Int)
  inv_words : List (Int × String)
  allow_any_word : Bool
  split_punctuation : Bool
  unk_index : Option Int
  initialized : Bool
  deriving DecidableEq, Repr

/-- `_add_word`: insert a word at index `len(words)` and record the inverse
mapping (re-adding an existing word overwrites its index in place, exactly
as the Python dict assignment does). -/
def WordVocabulary.addWord (v : WordVocabulary) (w : String) : WordVocabulary :=
  { v with words := insertAssoc v.words w (v.words.length : Int),
           inv_words := insertAssoc v.inv_words (v.words.length : Int) w }

/-- The loop of `_add_set` over an already-sorted word list. -/
def WordVocabulary.addWords (v : WordVocabulary) (ws : List String) : WordVocabulary :=
  ws.foldl WordVocabulary.addWord v

/-- `_add_set`: add every word of a set in sorted order. -/
def WordVocabulary.addSet (v : WordVocabulary) (ws : List String) : WordVocabulary :=
  v.addWords (sortDedup ws)

/-- `finalize`: resolve the unknown-token index from `<UNK>` then `<unk>` and
mark the vocabulary initialized. The Python assert
`allow_any_word -> _unk_index is not None` is carried as a hypothesis where a
theorem needs it. -/
def WordVocabulary.finalize (v : WordVocabulary) : WordVocabulary :=
  { v with
    unk_index := match alookup "<UNK>" v.words with
      | some i => some i
      | none => alookup "<unk>" v.words,
    initialized := true }

/-- `WordVocabulary.__init__`: reserve `<pad>` (added first, on an empty
dict, hence index 0), then optionally add all corpus tokens in sorted order
and finalize. Corpus sentences are modelled pre-tokenized, i.e. through the
list branch of `split_sentence`. -/
def mkWordVocabulary (corpus : Option (List (List String))) (allow split : Bool) :
    WordVocabulary :=
  let base : WordVocabulary :=
    { words := [], inv_words := [], allow_any_word := allow,
      split_punctuation := split, unk_index := none, initialized := false }
  let v := base.addWord "<pad>"
  match corpus with
  | none => v
  | some ss => (v.addSet ss.flatten).finalize

/-- `_process_word`: look the word up with the unknown index as the dict
default, then assert `res != _unk_index or allow_any_word`. -/
def WordVocabulary.processWord (v : WordVocabulary) (w : String) :
    Except VocabError (Option Int) :=
  let res := match alookup w v.words with
    | some i => some i
    | none => v.unk_index
  if res ≠ v.unk_index ∨ v.allow_any_word = true then .ok res
  else .error .unknownWord

/-- `_process_index`: look the index up and fall back to the tagged
placeholder string; this function never fails. -/
def WordVocabulary.processIndex (v : WordVocabulary) (i : Int) : String :=
  match alookup i v.inv_words with
  | some w => w
  | none => "<!INV: " ++ toString i ++ "!>"

/-- `sentence_to_indices` on a pre-tokenized sentence: assert `initialized`,
then encode each token. -/
def WordVocabulary.sentenceToIndices (v : WordVocabulary) (s : List String) :
    Except VocabError (List (Option Int)) :=
  if v.initialized = true then s.mapM v.processWord else .error .notInitialized

/-- `indices_to_sentence`: assert `initialized`, then decode each index
(decoding itself is total). -/
def WordVocabulary.indicesToSentence (v : WordVocabulary) (l : List Int) :
    Except VocabError (List String) :=
  if v.initialized = true then .ok (l.map v.processIndex) else .error .notInitialized

/-- Argument shapes of `WordVocabulary.__call__` relevant here: `None`, a
list of strings, or a list of ints. A raw-string argument goes through the
regex tokenizer and is outside the scope of the claims. -/
inductive CallArg where
  | argNone
  | argStrs (l : List String)
  | argInts (l : List Int)
  deriving DecidableEq, Repr

/-- `__call__`: `None` and the empty list are returned unchanged before any
initialization check; otherwise the first element's type selects encoding
(string) or decoding (int). -/
def WordVocabulary.vocCall (v : WordVocabulary) :
    CallArg → Except VocabError (CallArg ⊕ List (Option Int))
  | .argNone => .ok (.inl .argNone)
  | .argStrs [] => .ok (.inl (.argStrs []))
  | .argInts [] => .ok (.inl (.argInts []))
  | .argStrs l => (v.sentenceToIndices l).map .inr
  | .argInts l => (v.indicesToSentence l).map (fun ws => .inl (.argStrs ws))

/-- `WordVocabulary.__add__`: a fresh vocabulary (which reserves `<pad>`
again) over the union of both key sets, re-finalized. -/
def WordVocabulary.add (a b : WordVocabulary) : WordVocabulary :=
  ((mkWordVocabulary none (a.allow_any_word && b.allow_any_word)
    a.split_punctuation).addSet
      (a.words.map Prod.fst ++ b.words.map Prod.fst)).finalize

/-! ### `CharVocabulary` -/

/-- A Python value appearing as a `CharVocabulary` table key: a character of
the alphabet, or one of the integer indices that `__add__` passes to
`from_set`. -/
inductive PyKey where
  | kChar (c : Char)
  | kNat (n : Nat)
  deriving DecidableEq, Repr

/-- Ordering used by `sorted` on the key sets. Python raises on mixed
comparisons; the sets sorted by the source are always homogeneous, so the
order chosen across the two constructors is immaterial. -/
def pyKeyLe : PyKey → PyKey → Bool
  | .kChar a, .kChar b => decide (a.toNat ≤ b.toNat)
  | .kNat a, .kNat b => decide (a ≤ b)
  | .kNat _, .kChar _ => true
  | .kChar _, .kNat _ => false

/-- Python `sorted(set(l))` for key sets. -/
def sortDedupK (l : List PyKey) : List PyKey := sortBy pyKeyLe l.dedup

/-- The dict `{c: i for i, c in enumerate(chars)}` as an association list. -/
def mkToIndex : List PyKey → Nat → List (PyKey × Nat)
  | [], _ => []
  | c :: t, k => (c, k) :: mkToIndex t (k + 1)

/-- The dict `{i: c for i, c in enumerate(chars)}` as an association list. -/
def mkFromIndex : List PyKey → Nat → List (Nat × PyKey)
  | [], _ => []
  | c :: t, k => (k, c) :: mkFromIndex t (k + 1)

/-- State of a `CharVocabulary`: the ignore-character configuration, the two
index tables and the `initialized` flag. `ignore_char_idx` is modelled as a
plain natural (its Python default is 0). -/
structure CharVocabulary where
  ignore_char : Option PyKey
  ignore_char_idx : Nat
  to_index : List (PyKey × Nat)
  from_index : List (Nat × PyKey)
  initialized : Bool
  deriving DecidableEq, Repr

/-- The ordered alphabet built by `from_set`: plain sorted order, or the
sorted remainder with the ignore character spliced in at
`ignore_char_idx`. -/
def charOrder (ig : Option PyKey) (igx : Nat) (chars : List PyKey) : List PyKey :=
  match ig with
  | some g =>
    (sortDedupK (chars.filter (fun c => c ≠ g))).take igx
      ++ g :: (sortDedupK (chars.filter (fun c => c ≠ g))).drop igx
  | none => sortDedupK chars

/-- `from_set`: rebuild both index tables from a character set using the
receiving instance's own `ignore_char` settings, and mark initialized. -/
def CharVocabulary.fromSet (v : CharVocabulary) (chars : List PyKey) : CharVocabulary :=
  { v with
    to_index := mkToIndex (charOrder v.ignore_char v.ignore_char_idx chars) 0,
    from_index := mkFromIndex (charOrder v.ignore_char v.ignore_char_idx chars) 0,
    initialized := true }

/-- `CharVocabulary.__init__`. -/
def mkCharVocabulary (chars : Option (List PyKey)) (ig : Option PyKey) (igx : Nat) :
    CharVocabulary :=
  let base : CharVocabulary :=
    { ignore_char := ig, ignore_char_idx := igx, to_index := [], from_index := [],
      initialized := false }
  match chars with
  | some cs => base.fromSet cs
  | none => base

/-- `state_dict`: the snapshot holds only the character set (the keys of
`to_index`). -/
def CharVocabulary.stateDict (v : CharVocabulary) : List PyKey :=
  v.to_index.map Prod.fst

/-- `load_state_dict`: rebuild from the stored set with the receiving
instance's own settings. -/
def CharVocabulary.loadStateDict (v : CharVocabulary) (chars : List PyKey) : CharVocabulary :=
  v.fromSet chars

/-- `CharVocabulary.__add__` as written in the source: it unions
`to_index.values()` — the integer indices — rather than the keys, and passes
the result to a fresh instance with default (no ignore character)
configuration. -/
def CharVocabulary.add (a b : CharVocabulary) : CharVocabulary :=
  mkCharVocabulary (some ((a.to_index.map (fun p => PyKey.kNat p.2))
    ++ (b.to_index.map (fun p => PyKey.kNat p.2)))) none 0

/-- `str_to_ind`: encode every character of the string; a character outside
the alphabet is a `KeyError`. -/
def CharVocabulary.strToInd (v : CharVocabulary) (s : String) :
    Except VocabError (List Nat) :=
  s.data.mapM (fun c => match alookup (PyKey.kChar c) v.to_index with
    | some i => .ok i
    | none => .error .keyError)

/-- `ind_to_str`: decode every index and join into a string; a missing index
is a `KeyError`, a non-character table value would make `join` raise a
`TypeError`. -/
def CharVocabulary.indToStr (v : CharVocabulary) (l : List Nat) :
    Except VocabError String :=
  (l.mapM (fun i => (match alookup i v.from_index with
    | some (PyKey.kChar c) => .ok c
    | some (PyKey.kNat _) => .error .typeError
    | none => .error .keyError : Except VocabError Char))).map String.mk

/-- The word→index table of a vocabulary whose words, in insertion order,
are `wl` starting at index `k` (the canonical shape of a table built by
adding fresh words only). -/
def wordAssoc : List String → Int → List (String × Int)
  | [], _ => []
  | w :: t, k => (w, k) :: wordAssoc t (k + 1)

/-- The index→word table matching `wordAssoc`. -/
def invAssoc : List String → Int → List (Int × String)
  | [], _ => []
  | w :: t, k => (k, w) :: invAssoc t (k + 1)

/-! ### Generic list helpers -/

/-- Insertion of `a` at position `k`, written exactly as the source's
`max_size[:batch_dim] + [len(batch)] + max_size[batch_dim:]`. -/
def insertAt (l : List α) (k : Nat) (a : α) : List α :=
  l.take k ++ a :: l.drop k

/-- Removal of the entry at position `k` (used for torch's `squeeze`). -/
def removeAt (l : List α) (k : Nat) : List α :=
  l.take k ++ l.drop (k + 1)

/-- Dot product of two lists of naturals (flat position of a multi-index
against a stride vector). -/
def dotL (a b : List Nat) : Nat :=
  (List.zipWith (· * ·) a b).sum

/-- Row-major strides of a contiguous tensor of shape `s`: the stride of
dimension 0 is the product of the remaining extents. -/
def strides : List Nat → List Nat
  | [] => []
  | _ :: t => t.prod :: strides t

/-- Decidable "multi-index `c` is inside shape `s`" (same rank, every
coordinate strictly below the extent). -/
def insideB : List Nat → List Nat → Bool
  | [], [] => true
  | c :: ct, s :: st => decide (c < s) && insideB ct st
  | _, _ => false

/-- All multi-indices of a shape, in lexicographic order (the index space a
`copy_` iterates over). -/
def allIdx : List Nat → List (List Nat)
  | [] => [[]]
  | n :: t => (List.range n).flatMap fun i => (allIdx t).map (i :: ·)

/-! ### Tensors and views (embedding of `src/trainer/collate.py`) -/

/-- A torch tensor: a shape and a row-major contiguous data buffer. -/
structure Tensor where
  shape : List Nat
  data : List Int
  deriving DecidableEq, Repr

/-- Indexing a tensor at a multi-index (row-major flat position). Out of
range it returns 0 where torch would raise; the theorems below only ever
index within bounds. -/
def Tensor.get (t : Tensor) (c : List Nat) : Int :=
  t.data.getD (dotL c (strides t.shape)) 0

/-- A torch view into a flat buffer: an offset, per-dimension extents and
per-dimension strides. -/
structure View where
  offset : Nat
  sizes : List Nat
  strides : List Nat
  deriving DecidableEq, Repr

/-- Model of `tensor.narrow(dim, start, length)`: shift the offset by
`start` strides of `dim` and shrink that dimension's extent to `length`. -/
def View.narrow (v : View) (dim start len : Nat) : View :=
  ⟨v.offset + start * v.strides.getD dim 0, v.sizes.set dim len, v.strides⟩

/-- Model of `tensor.squeeze(dim)`: drop dimension `dim` when its extent
is 1, otherwise leave the view unchanged. -/
def View.squeeze (v : View) (dim : Nat) : View :=
  if v.sizes.getD dim 0 = 1 then ⟨v.offset, removeAt v.sizes dim, removeAt v.strides dim⟩ else v

/-- Model of `view.copy_(src)`: write `src`'s value for every multi-index of
the view's index space into the backing buffer at the strided position.
Faithful when `v.sizes = src.shape`, which torch requires and which the
merge guarantees for equal-rank batches. -/
def writeView (buf : List Int) (v : View) (src : Tensor) : List Int :=
  (allIdx v.sizes).foldl (fun b c => b.set (v.offset + dotL c v.strides) (src.get c)) buf

/-- One iteration of the `_measure_array_max_dim` loop: update the
"size differs" flags against the running maximum shape, then take the
elementwise maximum with the next element's shape. -/
def measureStep (acc : List Nat × List Bool) (t : Tensor) : List Nat × List Bool :=
  (List.zipWith max acc.1 t.shape,
   List.zipWith (fun d (p : Nat × Nat) => d || decide (p.1 ≠ p.2)) acc.2 (acc.1.zip t.shape))

/-- Model of `VarLengthCollate._measure_array_max_dim`: running elementwise
maximum of the shapes, plus the per-dimension "size differs" flags (each
element is compared against the running maximum, as in the source).
`zipWith` truncates where Python would raise an `IndexError` on an element
of smaller rank; the theorems assume equal ranks, as the source does. -/
def measureArrayMaxDim (batch : List Tensor) : List Nat × List Bool :=
  match batch with
  | [] => ([], [])
  | b :: rest =>
    rest.foldl measureStep (b.shape, List.replicate b.shape.length false)

/-- Output shape of the merge: the elementwise maximum shape with a new
dimension of extent `batch.length` inserted at position `batchDim`. -/
def mergeOutShape (batch : List Tensor) (batchDim : Nat) : List Nat :=
  insertAt (measureArrayMaxDim batch).1 batchDim batch.length

/-- The dimension the merge slices along, exactly the source's
`self.batch_dim if len(out.shape) > self.batch_dim else 0`. -/
def mergeSliceDim (s : List Nat) (batchDim : Nat) : Nat :=
  if batchDim < s.length then batchDim else 0

/-- One iteration of the narrowing loop `for j, diff in enumerate(different)`:
narrow dimension `j` to the element's extent when that dimension varies. -/
def narrowStep (d : Tensor) (acc : Nat × View) (df : Bool) : Nat × View :=
  (acc.1 + 1, if df then acc.2.narrow acc.1 0 (d.shape.getD acc.1 0) else acc.2)

/-- The chain of `narrow(j, 0, d.size(j))` calls applied for every dimension
`j` whose extent differs across the batch. -/
def narrowDiffs (v : View) (diffs : List Bool) (d : Tensor) : View :=
  (diffs.foldl (narrowStep d) (0, v)).2

/-- One iteration of the copy loop `for i, d in enumerate(batch)`: slice the
output along the batch dimension at index `i`, squeeze it, narrow every
varying dimension to the element's extent and copy the element in. -/
def mergeStep (s : List Nat) (diffs : List Bool) (batchDim : Nat)
    (acc : Nat × List Int) (d : Tensor) : Nat × List Int :=
  let i := acc.1
  let bdim := mergeSliceDim s batchDim
  let v0 := View.squeeze (View.narrow ⟨0, s, strides s⟩ bdim i 1) bdim
  let v := narrowDiffs v0 diffs d
  (i + 1, writeView acc.2 v d)

/-- Model of `VarLengthCollate._merge_var_len_array`: allocate one flat
buffer of `reduce(mul, s, 1)` cells filled with the pad value (the source's
`ignore_symbol if ... is not None else 0`, taken here as the `pad`
argument), then copy each element into its (narrowed) slice along the batch
dimension. -/
def mergeVarLenArray (batch : List Tensor) (pad : Int) (batchDim : Nat) : Tensor :=
  let md := measureArrayMaxDim batch
  let s := insertAt md.1 batchDim batch.length
  let buf0 := List.replicate (s.foldl (· * ·) 1) pad
  let buf := (batch.foldl (mergeStep s md.2 batchDim) (0, buf0)).2
  ⟨s, buf⟩

/-! ### Helper lemmas about the list operations -/

theorem getD_zipWith {f : α → β → γ} {a : List α} {b : List β} {j : Nat}
    (ha : j < a.length) (hb : j < b.length) (da : α) (db : β) :
    (List.zipWith f a b).getD j (f da db) = f (a.getD j da) (b.getD j db) := by
  have hj : j < (List.zipWith f a b).length := by
    rw [List.length_zipWith]; omega
  rw [List.getD_eq_getElem _ _ hj, List.getD_eq_getElem _ _ ha, List.getD_eq_getElem _ _ hb,
    List.getElem_zipWith]

theorem length_insertAt (l : List α) (k : Nat) (a : α) :
    (insertAt l k a).length = l.length + 1 := by
  simp only [insertAt, List.length_append, List.length_cons, List.length_take, List.length_drop]
  omega

theorem length_removeAt {l : List α} {k : Nat} (h : k < l.length) :
    (removeAt l k).length = l.length - 1 := by
  simp only [removeAt, List.length_append, List.length_take, List.length_drop]
  omega

theorem getElemQ_insertAt_self {l : List α} {k : Nat} (h : k ≤ l.length) (a : α) :
    (insertAt l k a)[k]? = some a := by
  have htk : (l.take k).length = k := by simp; omega
  show (l.take k ++ a :: l.drop k)[k]? = some a
  rw [List.getElem?_append_right (by omega), htk]
  simp

theorem getD_insertAt_self {l : List α} {k : Nat} (h : k ≤ l.length) (a d : α) :
    (insertAt l k a).getD k d = a := by
  rw [List.getD_eq_getElem?_getD, getElemQ_insertAt_self h]
  rfl

theorem getD_insertAt_lt {l : List α} {k j : Nat} (hj : j < k) (hk : k ≤ l.length) (a d : α) :
    (insertAt l k a).getD j d = l.getD j d := by
  have htk : (l.take k).length = k := by simp; omega
  rw [List.getD_eq_getElem?_getD, List.getD_eq_getElem?_getD]
  show (l.take k ++ a :: l.drop k)[j]?.getD d = l[j]?.getD d
  rw [List.getElem?_append_left (by omega), List.getElem?_take, if_pos hj]

theorem getD_insertAt_gt {l : List α} {k j : Nat} (hj : k < j) (a d : α) :
    (insertAt l k a).getD j d = l.getD (j - 1) d := by
  rcases le_or_lt k l.length with hk | hk
  · have htk : (l.take k).length = k := by simp; omega
    rw [List.getD_eq_getElem?_getD, List.getD_eq_getElem?_getD]
    show (l.take k ++ a :: l.drop k)[j]?.getD d = l[j - 1]?.getD d
    rw [List.getElem?_append_right (by omega), htk,
      show j - k = (j - k - 1) + 1 by omega, List.getElem?_cons_succ, List.getElem?_drop]
    congr 2
    omega
  · have h1 : insertAt l k a = l ++ [a] := by
      unfold insertAt
      rw [List.take_of_length_le (by omega), List.drop_eq_nil_of_le (by omega)]
    rcases le_or_lt j l.length with h2 | h2
    · omega
    · rw [h1, List.getD_eq_getElem?_getD, List.getD_eq_getElem?_getD,
        List.getElem?_append_right (by omega)]
      have h3 : l[j - 1]? = none := List.getElem?_eq_none (by omega)
      have h4 : [a][j - l.length]? = none := List.getElem?_eq_none (by simp; omega)
      rw [h3, h4]

theorem removeAt_insertAt {l : List α} {k : Nat} (h : k ≤ l.length) (a : α) :
    removeAt (insertAt l k a) k = l := by
  have htk : (l.take k).length = k := by simp; omega
  show (insertAt l k a).take k ++ (insertAt l k a).drop (k + 1) = l
  unfold insertAt
  rw [List.take_left' htk, List.append_cons, List.drop_left' (by simp [htk]),
    List.take_append_drop]

theorem getD_removeAt_lt {l : List α} {k j : Nat} (hj : j < k) (d : α) :
    (removeAt l k).getD j d = l.getD j d := by
  rw [List.getD_eq_getElem?_getD, List.getD_eq_getElem?_getD]
  show (l.take k ++ l.drop (k + 1))[j]?.getD d = l[j]?.getD d
  rcases lt_or_le j (l.take k).length with h | h
  · rw [List.getElem?_append_left h, List.getElem?_take, if_pos hj]
  · have h1 : l.length ≤ j := by
      have := List.length_take k l
      omega
    rw [List.getElem?_append_right h, List.getElem?_drop]
    have h2 : l[k + 1 + (j - (l.take k).length)]? = none := List.getElem?_eq_none (by omega)
    have h3 : l[j]? = none := List.getElem?_eq_none h1
    rw [h2, h3]

theorem getD_removeAt_ge {l : List α} {k j : Nat} (hj : k ≤ j) (hk : k < l.length) (d : α) :
    (removeAt l k).getD j d = l.getD (j + 1) d := by
  have htk : (l.take k).length = k := by simp; omega
  rw [List.getD_eq_getElem?_getD, List.getD_eq_getElem?_getD]
  show (l.take k ++ l.drop (k + 1))[j]?.getD d = l[j + 1]?.getD d
  rw [List.getElem?_append_right (by omega), htk, List.getElem?_drop]
  congr 2
  omega

theorem insertAt_removeAt {l : List α} {k : Nat} (h : k < l.length) (d : α) :
    insertAt (removeAt l k) k (l.getD k d) = l := by
  have htk : (l.take k).length = k := by simp; omega
  show (removeAt l k).take k ++ l.getD k d :: (removeAt l k).drop k = l
  unfold removeAt
  rw [List.take_left' htk, List.drop_left' htk, List.getD_eq_getElem _ _ h,
    List.getElem_cons_drop, List.take_append_drop]

theorem dotL_nil_left (b : List Nat) : dotL [] b = 0 := rfl

theorem dotL_cons (a b : Nat) (t bs : List Nat) :
    dotL (a :: t) (b :: bs) = a * b + dotL t bs := by
  simp [dotL]

theorem dotL_append {a x : List Nat} (h : a.length = x.length) (b y : List Nat) :
    dotL (a ++ b) (x ++ y) = dotL a x + dotL b y := by
  unfold dotL
  rw [List.zipWith_append _ _ _ _ _ h, List.sum_append]

theorem length_strides (s : List Nat) : (strides s).length = s.length := by
  induction s with
  | nil => rfl
  | cons n t ih => simp [strides, ih]

theorem insideB_length {c s : List Nat} (h : insideB c s = true) : c.length = s.length := by
  induction s generalizing c with
  | nil => cases c with
    | nil => rfl
    | cons a t => simp [insideB] at h
  | cons n st ih =>
    cases c with
    | nil => simp [insideB] at h
    | cons a ct =>
      simp only [insideB, Bool.and_eq_true] at h
      simp [ih h.2]

theorem insideB_getD {c s : List Nat} (h : insideB c s = true) {j : Nat} (hj : j < s.length) :
    c.getD j 0 < s.getD j 0 := by
  induction s generalizing c j with
  | nil => simp at hj
  | cons n st ih =>
    cases c with
    | nil => simp [insideB] at h
    | cons a ct =>
      simp only [insideB, Bool.and_eq_true, decide_eq_true_eq] at h
      cases j with
      | zero => simpa using h.1
      | succ j' =>
        simp only [List.getD_cons_succ]
        exact ih h.2 (by simpa using hj)

theorem insideB_of_parts {c s : List Nat} (hlen : c.length = s.length)
    (h : ∀ j, j < s.length → c.getD j 0 < s.getD j 0) : insideB c s = true := by
  induction s generalizing c with
  | nil =>
    cases c with
    | nil => rfl
    | cons a t => simp at hlen
  | cons n st ih =>
    cases c with
    | nil => simp at hlen
    | cons a ct =>
      simp only [insideB, Bool.and_eq_true, decide_eq_true_eq]
      refine ⟨by simpa using h 0 (by simp), ih (by simpa using hlen) ?_⟩
      intro j hj
      simpa using h (j + 1) (by simpa using hj)

theorem dotL_strides_lt {c s : List Nat} (h : insideB c s = true) :
    dotL c (strides s) < s.prod := by
  induction s generalizing c with
  | nil =>
    cases c with
    | nil => simp [dotL]
    | cons a t => simp [insideB] at h
  | cons n st ih =>
    cases c with
    | nil => simp [insideB] at h
    | cons a ct =>
      simp only [insideB, Bool.and_eq_true, decide_eq_true_eq] at h
      have hrec := ih h.2
      have hbound : a + 1 ≤ n := h.1
      calc dotL (a :: ct) (strides (n :: st)) = a * st.prod + dotL ct (strides st) := by
            simp [dotL, strides]
        _ < a * st.prod + st.prod := by omega
        _ = (a + 1) * st.prod := by ring
        _ ≤ n * st.prod := Nat.mul_le_mul_right _ hbound
        _ = (n :: st).prod := by simp

theorem dotL_strides_inj {c c' s : List Nat} (h : insideB c s = true)
    (h' : insideB c' s = true)
    (heq : dotL c (strides s) = dotL c' (strides s)) : c = c' := by
  induction s generalizing c c' with
  | nil =>
    cases c with
    | cons a t => simp [insideB] at h
    | nil => cases c' with
      | cons a t => simp [insideB] at h'
      | nil => rfl
  | cons n st ih =>
    cases c with
    | nil => simp [insideB] at h
    | cons a ct =>
      cases c' with
      | nil => simp [insideB] at h'
      | cons a' ct' =>
        simp only [insideB, Bool.and_eq_true, decide_eq_true_eq] at h h'
        have hr := dotL_strides_lt h.2
        have hr' := dotL_strides_lt h'.2
        have hP : 0 < st.prod := by omega
        simp only [dotL, strides, List.zipWith_cons_cons, List.sum_cons] at heq
        have heq' : a * st.prod + (List.zipWith (· * ·) ct (strides st)).sum
            = a' * st.prod + (List.zipWith (· * ·) ct' (strides st)).sum := heq
        have hd : a = a' := by
          have h1 : (a * st.prod + (List.zipWith (· * ·) ct (strides st)).sum) / st.prod = a := by
            rw [Nat.mul_comm a st.prod, Nat.mul_add_div hP]
            have : (List.zipWith (· * ·) ct (strides st)).sum / st.prod = 0 :=
              Nat.div_eq_of_lt hr
            omega
          have h2 : (a' * st.prod + (List.zipWith (· * ·) ct' (strides st)).sum) / st.prod = a' := by
            rw [Nat.mul_comm a' st.prod, Nat.mul_add_div hP]
            have : (List.zipWith (· * ·) ct' (strides st)).sum / st.prod = 0 :=
              Nat.div_eq_of_lt hr'
            omega
          rw [← h1, heq', h2]
        subst hd
        have htail : dotL ct (strides st) = dotL ct' (strides st) := by
          unfold dotL
          omega
        rw [ih h.2 h'.2 htail]

theorem mem_allIdx {s c : List Nat} : c ∈ allIdx s ↔ insideB c s = true := by
  induction s generalizing c with
  | nil =>
    cases c with
    | nil => simp [allIdx, insideB]
    | cons a t => simp [allIdx, insideB]
  | cons n st ih =>
    constructor
    · intro h
      simp only [allIdx, List.mem_flatMap, List.mem_map, List.mem_range] at h
      obtain ⟨i, hi, ct, hct, rfl⟩ := h
      simp only [insideB, Bool.and_eq_true, decide_eq_true_eq]
      exact ⟨hi, ih.mp hct⟩
    · intro h
      cases c with
      | nil => simp [insideB] at h
      | cons a ct =>
        simp only [insideB, Bool.and_eq_true, decide_eq_true_eq] at h
        simp only [allIdx, List.mem_flatMap, List.mem_map, List.mem_range]
        exact ⟨a, h.1, ct, ih.mpr h.2, rfl⟩

theorem nodup_allIdx (s : List Nat) : (allIdx s).Nodup := by
  induction s with
  | nil => simp [allIdx]
  | cons n st ih =>
    show ((List.range n).flatMap fun i => (allIdx st).map (i :: ·)).Nodup
    rw [List.flatMap_def, List.nodup_flatten]
    constructor
    · intro l hl
      simp only [List.mem_map] at hl
      obtain ⟨i, _, rfl⟩ := hl
      exact ih.map List.cons_injective
    · refine List.Pairwise.map _ ?_ ((List.nodup_range n))
      intro a b hab
      rw [List.disjoint_left]
      rintro x hxa hxb
      simp only [List.mem_map] at hxa hxb
      obtain ⟨ca, _, rfl⟩ := hxa
      obtain ⟨cb, _, hcb⟩ := hxb
      exact hab (List.head_eq_of_cons_eq hcb.symm ▸ rfl)

theorem getD_set_self {b : List α} {p : Nat} (h : p < b.length) (x d : α) :
    (b.set p x).getD p d = x := by
  rw [List.getD_eq_getElem _ _ (by simpa using h), List.getElem_set_self]

theorem getD_set_ne {b : List α} {q p : Nat} (h : q ≠ p) (x d : α) :
    (b.set q x).getD p d = b.getD p d := by
  rw [List.getD_eq_getElem?_getD, List.getD_eq_getElem?_getD, List.getElem?_set_ne h]

theorem length_foldl_set {β : Type _} (l : List β) (g : β → Nat) (f : β → α) (buf : List α) :
    (l.foldl (fun b c => b.set (g c) (f c)) buf).length = buf.length := by
  induction l generalizing buf with
  | nil => rfl
  | cons c t ih => simp [ih]

theorem foldl_set_not_written {β : Type _} {l : List β} {g : β → Nat} {f : β → α}
    {p : Nat} (h : ∀ c ∈ l, g c ≠ p) (buf : List α) (d : α) :
    (l.foldl (fun b c => b.set (g c) (f c)) buf).getD p d = buf.getD p d := by
  induction l generalizing buf with
  | nil => rfl
  | cons c t ih =>
    rw [List.foldl_cons, ih (fun c' hc' => h c' (List.mem_cons_of_mem _ hc')),
      getD_set_ne (h c (List.mem_cons_self _ _)) _ _]

theorem foldl_set_written {β : Type _} [DecidableEq β] {l : List β} {g : β → Nat} {f : β → α}
    {c₀ : β} (hc : c₀ ∈ l) (hnd : (l.map g).Nodup) (buf : List α)
    (hlen : g c₀ < buf.length) (d : α) :
    (l.foldl (fun b c => b.set (g c) (f c)) buf).getD (g c₀) d = f c₀ := by
  induction l generalizing buf with
  | nil => simp at hc
  | cons c t ih =>
    rw [List.foldl_cons]
    rcases List.mem_cons.mp hc with rfl | hmem
    · have hnot : ∀ c' ∈ t, g c' ≠ g c₀ := by
        intro c' hc' heq
        have : g c₀ ∈ t.map g := heq ▸ List.mem_map_of_mem g hc'
        exact (List.nodup_cons.mp (by simpa using hnd)).1 this
      rw [foldl_set_not_written hnot, getD_set_self hlen]
    · exact ih hmem (List.nodup_cons.mp (by simpa using hnd)).2 _ (by simpa using hlen)

/-! ### Properties of `measureArrayMaxDim` -/

theorem measure_fold {r : Nat} (l : List Tensor) (s0 : List Nat) (d0 : List Bool)
    (hs : s0.length = r) (hd : d0.length = r) (hl : ∀ t ∈ l, t.shape.length = r) :
    (l.foldl measureStep (s0, d0)).1.length = r ∧
    (l.foldl measureStep (s0, d0)).2.length = r ∧
    (∀ j, j < r → s0.getD j 0 ≤ (l.foldl measureStep (s0, d0)).1.getD j 0) ∧
    (∀ t ∈ l, ∀ j, j < r → t.shape.getD j 0 ≤ (l.foldl measureStep (s0, d0)).1.getD j 0) ∧
    (∀ j, j < r → (l.foldl measureStep (s0, d0)).2.getD j false = false →
      d0.getD j false = false ∧ (l.foldl measureStep (s0, d0)).1.getD j 0 = s0.getD j 0 ∧
      ∀ t ∈ l, t.shape.getD j 0 = s0.getD j 0) := by
  induction l generalizing s0 d0 with
  | nil =>
    refine ⟨hs, hd, fun j hj => le_refl _, by simp, ?_⟩
    intro j hj h
    exact ⟨h, rfl, by simp⟩
  | cons t0 rest ih =>
    have ht0 : t0.shape.length = r := hl t0 (List.mem_cons_self _ _)
    have hrest : ∀ t ∈ rest, t.shape.length = r := fun t ht => hl t (List.mem_cons_of_mem _ ht)
    have hs1 : (List.zipWith max s0 t0.shape).length = r := by
      rw [List.length_zipWith]; omega
    have hd1 : (List.zipWith (fun d (p : Nat × Nat) => d || decide (p.1 ≠ p.2)) d0
        (s0.zip t0.shape)).length = r := by
      rw [List.length_zipWith, List.length_zip]; omega
    have hstep : List.foldl measureStep (s0, d0) (t0 :: rest)
        = List.foldl measureStep (List.zipWith max s0 t0.shape,
            List.zipWith (fun d (p : Nat × Nat) => d || decide (p.1 ≠ p.2)) d0
              (s0.zip t0.shape)) rest := rfl
    obtain ⟨ih1, ih2, ih3, ih4, ih5⟩ := ih _ _ hs1 hd1 hrest
    have hmax : ∀ j, j < r →
        (List.zipWith max s0 t0.shape).getD j 0 = max (s0.getD j 0) (t0.shape.getD j 0) := by
      intro j hj
      have := getD_zipWith (f := max) (a := s0) (b := t0.shape) (j := j)
        (by omega) (by omega) 0 0
      simpa using this
    have hflag : ∀ j, j < r →
        (List.zipWith (fun d (p : Nat × Nat) => d || decide (p.1 ≠ p.2)) d0
          (s0.zip t0.shape)).getD j false
        = (d0.getD j false || decide (s0.getD j 0 ≠ t0.shape.getD j 0)) := by
      intro j hj
      have hz : (s0.zip t0.shape).getD j (0, 0) = (s0.getD j 0, t0.shape.getD j 0) := by
        have := getD_zipWith (f := Prod.mk) (a := s0) (b := t0.shape) (j := j)
          (by omega) (by omega) 0 0
        simpa [List.zip] using this
      have h := getD_zipWith (f := fun d (p : Nat × Nat) => d || decide (p.1 ≠ p.2))
        (a := d0) (b := s0.zip t0.shape) (j := j) (by omega)
        (by rw [List.length_zip]; omega) false (0, 0)
      rw [hz] at h
      simpa using h
    rw [hstep]
    refine ⟨ih1, ih2, ?_, ?_, ?_⟩
    · intro j hj
      have := ih3 j hj
      rw [hmax j hj] at this
      omega
    · intro t ht j hj
      rcases List.mem_cons.mp ht with rfl | hmem
      · have := ih3 j hj
        rw [hmax j hj] at this
        omega
      · exact ih4 t hmem j hj
    · intro j hj h
      obtain ⟨h1, h2, h3⟩ := ih5 j hj h
      rw [hflag j hj] at h1
      simp only [Bool.or_eq_false_iff, decide_eq_false_iff_not, ne_eq, not_not] at h1
      obtain ⟨hd0, heq⟩ := h1
      rw [hmax j hj, ← heq, max_self] at h2
      refine ⟨hd0, h2, ?_⟩
      intro t ht
      rcases List.mem_cons.mp ht with rfl | hmem
      · exact heq.symm
      · rw [h3 t hmem, hmax j hj, ← heq, max_self]

theorem measure_spec {b : Tensor} {rest : List Tensor}
    (hr : ∀ t ∈ b :: rest, t.shape.length = b.shape.length) :
    (measureArrayMaxDim (b :: rest)).1.length = b.shape.length ∧
    (measureArrayMaxDim (b :: rest)).2.length = b.shape.length ∧
    (∀ t ∈ b :: rest, ∀ j, j < b.shape.length →
      t.shape.getD j 0 ≤ (measureArrayMaxDim (b :: rest)).1.getD j 0) ∧
    (∀ j, j < b.shape.length → (measureArrayMaxDim (b :: rest)).2.getD j false = false →
      ∀ t ∈ b :: rest, t.shape.getD j 0 = (measureArrayMaxDim (b :: rest)).1.getD j 0) := by
  have hrest : ∀ t ∈ rest, t.shape.length = b.shape.length :=
    fun t ht => hr t (List.mem_cons_of_mem _ ht)
  obtain ⟨h1, h2, h3, h4, h5⟩ := measure_fold rest b.shape
    (List.replicate b.shape.length false) rfl (by simp) hrest
  have hunfold : measureArrayMaxDim (b :: rest)
      = rest.foldl measureStep (b.shape, List.replicate b.shape.length false) := rfl
  rw [hunfold]
  refine ⟨h1, h2, ?_, ?_⟩
  · intro t ht j hj
    rcases List.mem_cons.mp ht with rfl | hmem
    · exact h3 j hj
    · exact h4 t hmem j hj
  · intro j hj hflag t ht
    obtain ⟨_, heq, hall⟩ := h5 j hj hflag
    rcases List.mem_cons.mp ht with rfl | hmem
    · exact heq.symm
    · rw [hall t hmem, heq]

/-! ### Properties of the narrowing loop and the views -/

theorem narrowDiffs_fold (t : Tensor) (df : List Bool) (k : Nat) (w : View) :
    (df.foldl (narrowStep t) (k, w)).2.offset = w.offset ∧
    (df.foldl (narrowStep t) (k, w)).2.strides = w.strides ∧
    (df.foldl (narrowStep t) (k, w)).2.sizes.length = w.sizes.length ∧
    (∀ j, (df.foldl (narrowStep t) (k, w)).2.sizes.getD j 0 =
      if k ≤ j ∧ df.getD (j - k) false = true ∧ j < w.sizes.length
      then t.shape.getD j 0 else w.sizes.getD j 0) := by
  induction df generalizing k w with
  | nil =>
    refine ⟨rfl, rfl, rfl, ?_⟩
    intro j
    simp
  | cons x rest ih =>
    have hw' : (narrowStep t (k, w) x).2.offset = w.offset ∧
        (narrowStep t (k, w) x).2.strides = w.strides ∧
        (narrowStep t (k, w) x).2.sizes
          = (if x = true then w.sizes.set k (t.shape.getD k 0) else w.sizes) := by
      cases x <;> simp [narrowStep, View.narrow]
    have hstep : List.foldl (narrowStep t) (k, w) (x :: rest)
        = List.foldl (narrowStep t) (k + 1, (narrowStep t (k, w) x).2) rest := rfl
    obtain ⟨iho, ihs, ihl, ihg⟩ := ih (k + 1) (narrowStep t (k, w) x).2
    obtain ⟨ho, hs, hsz⟩ := hw'
    have hlen' : (narrowStep t (k, w) x).2.sizes.length = w.sizes.length := by
      rw [hsz]; cases x <;> simp
    rw [hstep]
    refine ⟨by rw [iho, ho], by rw [ihs, hs], by rw [ihl, hlen'], ?_⟩
    intro j
    rw [ihg j, hlen']
    rcases Nat.lt_trichotomy j k with hj | heq | hj
    · have c1 : ¬ (k + 1 ≤ j ∧ rest.getD (j - (k + 1)) false = true ∧ j < w.sizes.length) := by
        intro h; omega
      have c2 : ¬ (k ≤ j ∧ (x :: rest).getD (j - k) false = true ∧ j < w.sizes.length) := by
        intro h; omega
      rw [if_neg c1, if_neg c2, hsz]
      cases x
      · simp
      · simp only [if_pos rfl]
        exact getD_set_ne (by omega) _ _
    · subst heq
      have c1 : ¬ (j + 1 ≤ j ∧ rest.getD (j - (j + 1)) false = true ∧ j < w.sizes.length) := by
        intro h; omega
      rw [if_neg c1]
      have hjj : j - j = 0 := Nat.sub_self j
      cases x
      · have hsz' : (narrowStep t (j, w) false).2.sizes = w.sizes := by
          simp [narrowStep]
        rw [hsz', if_neg (fun h => by rw [hjj, List.getD_cons_zero] at h; exact absurd h.2.1 (by simp))]
      · have hsz' : (narrowStep t (j, w) true).2.sizes = w.sizes.set j (t.shape.getD j 0) := by
          simp [narrowStep, View.narrow]
        rw [hsz']
        rcases lt_or_le j w.sizes.length with hk | hk
        · rw [if_pos ⟨le_refl _, by rw [hjj, List.getD_cons_zero], hk⟩]
          exact getD_set_self hk _ _
        · rw [if_neg (fun h => absurd h.2.2 (by omega)),
            List.getD_eq_default _ _ (by rw [List.length_set]; omega),
            List.getD_eq_default _ _ (by omega)]
    · have hsub : j - k = (j - (k + 1)) + 1 := by omega
      have hcond : (k + 1 ≤ j ∧ rest.getD (j - (k + 1)) false = true ∧ j < w.sizes.length)
          ↔ (k ≤ j ∧ (x :: rest).getD (j - k) false = true ∧ j < w.sizes.length) := by
        rw [hsub, List.getD_cons_succ]
        constructor <;> (intro h; exact ⟨by omega, h.2.1, h.2.2⟩)
      by_cases hc : k + 1 ≤ j ∧ rest.getD (j - (k + 1)) false = true ∧ j < w.sizes.length
      · rw [if_pos hc, if_pos (hcond.mp hc)]
      · rw [if_neg hc, if_neg (fun h => hc (hcond.mpr h)), hsz]
        cases x
        · simp
        · simp only [if_pos rfl]
          exact getD_set_ne (by omega) _ _

theorem narrowDiffs_spec (t : Tensor) (df : List Bool) (w : View)
    (hw : w.sizes.length = t.shape.length)
    (hcompat : ∀ j, j < t.shape.length → (df.getD j false = false →
      w.sizes.getD j 0 = t.shape.getD j 0)) :
    narrowDiffs w df t = ⟨w.offset, t.shape, w.strides⟩ := by
  obtain ⟨ho, hs, hl, hg⟩ := narrowDiffs_fold t df 0 w
  have hsizes : (df.foldl (narrowStep t) (0, w)).2.sizes = t.shape := by
    apply List.ext_getElem (by omega)
    intro j h1 h2
    rw [← List.getD_eq_getElem _ 0 h1, ← List.getD_eq_getElem _ 0 h2, hg j]
    rcases Bool.eq_false_or_eq_true (df.getD j false) with hdf | hdf
    · rw [if_pos ⟨Nat.zero_le _, by rwa [Nat.sub_zero], by omega⟩]
    · rw [if_neg (fun h => by
        rw [Nat.sub_zero, hdf] at h
        exact absurd h.2.1 (by simp))]
      exact hcompat j (by omega) hdf
  show (df.foldl (narrowStep t) (0, w)).2 = _
  calc (df.foldl (narrowStep t) (0, w)).2
      = ⟨(df.foldl (narrowStep t) (0, w)).2.offset, (df.foldl (narrowStep t) (0, w)).2.sizes,
         (df.foldl (narrowStep t) (0, w)).2.strides⟩ := rfl
    _ = ⟨w.offset, t.shape, w.strides⟩ := by rw [ho, hs, hsizes]

theorem narrow_squeeze_view {s : List Nat} {bd i : Nat} (hbd : bd < s.length) :
    View.squeeze (View.narrow ⟨0, s, strides s⟩ bd i 1) bd
      = ⟨i * (strides s).getD bd 0, removeAt (s.set bd 1) bd, removeAt (strides s) bd⟩ := by
  have h1 : (s.set bd 1).getD bd 0 = 1 := getD_set_self hbd _ _
  simp only [View.narrow, View.squeeze, h1, if_pos, Nat.zero_add]

theorem removeAt_set (l : List α) (k : Nat) (a : α) :
    removeAt (l.set k a) k = removeAt l k := by
  unfold removeAt
  rcases lt_or_le k l.length with h | h
  · congr 1
    · apply List.ext_getElem (by simp)
      intro j h1 h2
      have hj : j < k := by
        have := List.length_take k (l.set k a)
        simp at h1
        omega
      rw [List.getElem_take, List.getElem_take, List.getElem_set_ne (by omega)]
    · apply List.ext_getElem (by simp)
      intro j h1 h2
      rw [List.getElem_drop, List.getElem_drop, List.getElem_set_ne (by omega)]
  · rw [List.set_eq_of_length_le h]

theorem dotL_insertAt_strides {st : List Nat} {bd : Nat} (hbd : bd < st.length)
    {c : List Nat} (hc : bd ≤ c.length) (i : Nat) :
    dotL (insertAt c bd i) st = i * st.getD bd 0 + dotL c (removeAt st bd) := by
  have h1 : (c.take bd).length = (st.take bd).length := by simp; omega
  have hst : st = st.take bd ++ st.getD bd 0 :: st.drop (bd + 1) := by
    conv_lhs => rw [← List.take_append_drop bd st]
    congr 1
    rw [List.getD_eq_getElem _ _ hbd, List.getElem_cons_drop]
  have h2 : dotL (insertAt c bd i) st
      = dotL (c.take bd) (st.take bd)
        + (i * st.getD bd 0 + dotL (c.drop bd) (st.drop (bd + 1))) := by
    conv_lhs => rw [show insertAt c bd i = c.take bd ++ i :: c.drop bd from rfl, hst]
    rw [dotL_append h1, dotL_cons]
  have h3 : dotL c (removeAt st bd)
      = dotL (c.take bd) (st.take bd) + dotL (c.drop bd) (st.drop (bd + 1)) := by
    conv_lhs => rw [← List.take_append_drop bd c]
    exact dotL_append h1 _ _
  omega

theorem insideB_insertAt_of {ms c : List Nat} {bd n i : Nat} (hbd : bd ≤ ms.length)
    (hi : i < n) (hlen : c.length = ms.length)
    (hlt : ∀ j, j < ms.length → c.getD j 0 < ms.getD j 0) :
    insideB (insertAt c bd i) (insertAt ms bd n) = true := by
  apply insideB_of_parts
  · rw [length_insertAt, length_insertAt, hlen]
  · intro j hj
    rw [length_insertAt] at hj
    rcases Nat.lt_trichotomy j bd with h | h | h
    · rw [getD_insertAt_lt h (by omega) _ _, getD_insertAt_lt h hbd _ _]
      exact hlt j (by omega)
    · subst h
      rw [getD_insertAt_self (by omega) _ _, getD_insertAt_self hbd _ _]
      exact hi
    · rw [getD_insertAt_gt h _ _, getD_insertAt_gt h _ _]
      exact hlt (j - 1) (by omega)

theorem insideB_decomp {ms : List Nat} {bd n : Nat} (hbd : bd ≤ ms.length) {v : List Nat}
    (h : insideB v (insertAt ms bd n) = true) :
    v = insertAt (removeAt v bd) bd (v.getD bd 0) ∧ v.getD bd 0 < n ∧
      insideB (removeAt v bd) ms = true := by
  have hlen : v.length = ms.length + 1 := by
    rw [insideB_length h, length_insertAt]
  have hsl : (insertAt ms bd n).length = ms.length + 1 := length_insertAt _ _ _
  have hbdv : v.getD bd 0 < n := by
    have := insideB_getD h (j := bd) (by omega)
    rwa [getD_insertAt_self hbd _ _] at this
  refine ⟨(insertAt_removeAt (by omega) 0).symm, hbdv, ?_⟩
  apply insideB_of_parts
  · rw [length_removeAt (by omega)]; omega
  · intro j hj
    rcases lt_or_le j bd with hc | hc
    · rw [getD_removeAt_lt hc _]
      have := insideB_getD h (j := j) (by omega)
      rwa [getD_insertAt_lt hc hbd _ _] at this
    · rw [getD_removeAt_ge hc (by omega) _]
      have := insideB_getD h (j := j + 1) (by omega)
      rwa [getD_insertAt_gt (by omega) _ _, Nat.add_sub_cancel] at this

theorem writeView_length (buf : List Int) (v : View) (t : Tensor) :
    (writeView buf v t).length = buf.length :=
  length_foldl_set _ _ _ _

theorem writeView_step {ms : List Nat} {bd n i : Nat} (hbd : bd ≤ ms.length) (hi : i < n)
    {t : Tensor} (hlen : t.shape.length = ms.length)
    (hle : ∀ j, j < ms.length → t.shape.getD j 0 ≤ ms.getD j 0)
    {buf : List Int} (hbuf : buf.length = (insertAt ms bd n).prod) :
    (∀ c, insideB c t.shape = true →
      (writeView buf ⟨i * (strides (insertAt ms bd n)).getD bd 0, t.shape,
          removeAt (strides (insertAt ms bd n)) bd⟩ t).getD
        (dotL (insertAt c bd i) (strides (insertAt ms bd n))) 0 = t.get c) ∧
    (∀ p, (∀ c, insideB c t.shape = true →
        p ≠ dotL (insertAt c bd i) (strides (insertAt ms bd n))) →
      (writeView buf ⟨i * (strides (insertAt ms bd n)).getD bd 0, t.shape,
          removeAt (strides (insertAt ms bd n)) bd⟩ t).getD p 0 = buf.getD p 0) := by
  have hslen : (insertAt ms bd n).length = ms.length + 1 := length_insertAt _ _ _
  have hstl : (strides (insertAt ms bd n)).length = ms.length + 1 := by
    rw [length_strides, hslen]
  have hclen : ∀ c, insideB c t.shape = true → c.length = ms.length := by
    intro c hc
    rw [insideB_length hc, hlen]
  have hins : ∀ c, insideB c t.shape = true →
      insideB (insertAt c bd i) (insertAt ms bd n) = true := by
    intro c hc
    refine insideB_insertAt_of hbd hi (hclen c hc) ?_
    intro j hj
    exact lt_of_lt_of_le (insideB_getD hc (by omega)) (hle j hj)
  have hpos : ∀ c, insideB c t.shape = true →
      i * (strides (insertAt ms bd n)).getD bd 0
        + dotL c (removeAt (strides (insertAt ms bd n)) bd)
      = dotL (insertAt c bd i) (strides (insertAt ms bd n)) := by
    intro c hc
    exact (dotL_insertAt_strides (by omega) (by rw [hclen c hc]; omega) i).symm
  have hgb : ∀ c, insideB c t.shape = true →
      dotL (insertAt c bd i) (strides (insertAt ms bd n)) < (insertAt ms bd n).prod := by
    intro c hc
    exact dotL_strides_lt (hins c hc)
  have hwv : writeView buf ⟨i * (strides (insertAt ms bd n)).getD bd 0, t.shape,
      removeAt (strides (insertAt ms bd n)) bd⟩ t
      = (allIdx t.shape).foldl
        (fun b c => b.set (i * (strides (insertAt ms bd n)).getD bd 0
          + dotL c (removeAt (strides (insertAt ms bd n)) bd)) (t.get c)) buf := rfl
  have hnd : ((allIdx t.shape).map
      (fun c => i * (strides (insertAt ms bd n)).getD bd 0
        + dotL c (removeAt (strides (insertAt ms bd n)) bd))).Nodup := by
    refine List.Nodup.map_on ?_ (nodup_allIdx _)
    intro c hc c' hc' heq
    have hc1 := mem_allIdx.mp hc
    have hc2 := mem_allIdx.mp hc'
    rw [hpos c hc1, hpos c' hc2] at heq
    have := dotL_strides_inj (hins c hc1) (hins c' hc2) heq
    have hr := congrArg (fun l => removeAt l bd) this
    have e1 : removeAt (insertAt c bd i) bd = c :=
      removeAt_insertAt (l := c) (by rw [hclen c hc1]; omega) i
    have e2 : removeAt (insertAt c' bd i) bd = c' :=
      removeAt_insertAt (l := c') (by rw [hclen c' hc2]; omega) i
    simp only at hr
    rw [e1, e2] at hr
    exact hr
  constructor
  · intro c hc
    rw [hwv, ← hpos c hc]
    exact foldl_set_written (mem_allIdx.mpr hc) hnd buf
      (by rw [hbuf, hpos c hc]; exact hgb c hc) 0
  · intro p hp
    rw [hwv]
    refine foldl_set_not_written ?_ buf 0
    intro c hc
    rw [hpos c (mem_allIdx.mp hc)]
    exact fun h => hp c (mem_allIdx.mp hc) h.symm

theorem mergeLoop_spec {ms : List Nat} {df : List Bool} {bd n batchDim : Nat}
    (hbd : bd ≤ ms.length)
    (hbdim : mergeSliceDim (insertAt ms bd n) batchDim = bd)
    (l : List Tensor) (i0 : Nat) (hin : i0 + l.length ≤ n)
    (hfit : ∀ t ∈ l, t.shape.length = ms.length ∧
      (∀ j, j < ms.length → t.shape.getD j 0 ≤ ms.getD j 0) ∧
      (∀ j, j < ms.length → df.getD j false = false → t.shape.getD j 0 = ms.getD j 0))
    (buf : List Int) (hbuf : buf.length = (insertAt ms bd n).prod) :
    (l.foldl (mergeStep (insertAt ms bd n) df batchDim) (i0, buf)).2.length = buf.length ∧
    (∀ k, k < l.length → ∀ c, insideB c ((l.getD k ⟨[], []⟩).shape) = true →
      (l.foldl (mergeStep (insertAt ms bd n) df batchDim) (i0, buf)).2.getD
          (dotL (insertAt c bd (i0 + k)) (strides (insertAt ms bd n))) 0
        = (l.getD k ⟨[], []⟩).get c) ∧
    (∀ p, (∀ k, k < l.length → ∀ c, insideB c ((l.getD k ⟨[], []⟩).shape) = true →
        p ≠ dotL (insertAt c bd (i0 + k)) (strides (insertAt ms bd n))) →
      (l.foldl (mergeStep (insertAt ms bd n) df batchDim) (i0, buf)).2.getD p 0
        = buf.getD p 0) := by
  induction l generalizing i0 buf with
  | nil =>
    refine ⟨rfl, ?_, ?_⟩
    · intro k hk
      simp at hk
    · intro p hp
      rfl
  | cons t lt ih =>
    have hslen : (insertAt ms bd n).length = ms.length + 1 := length_insertAt _ _ _
    have hft := hfit t (List.mem_cons_self _ _)
    have hflt : ∀ t' ∈ lt, t'.shape.length = ms.length ∧
        (∀ j, j < ms.length → t'.shape.getD j 0 ≤ ms.getD j 0) ∧
        (∀ j, j < ms.length → df.getD j false = false → t'.shape.getD j 0 = ms.getD j 0) :=
      fun t' ht' => hfit t' (List.mem_cons_of_mem _ ht')
    have hi0 : i0 < n := by
      have := hin
      simp only [List.length_cons] at this
      omega
    have hv0 : View.squeeze (View.narrow ⟨0, insertAt ms bd n,
        strides (insertAt ms bd n)⟩ bd i0 1) bd
        = ⟨i0 * (strides (insertAt ms bd n)).getD bd 0, ms,
           removeAt (strides (insertAt ms bd n)) bd⟩ := by
      rw [narrow_squeeze_view (by omega), removeAt_set, removeAt_insertAt hbd]
    have hstep : mergeStep (insertAt ms bd n) df batchDim (i0, buf) t
        = (i0 + 1, writeView buf ⟨i0 * (strides (insertAt ms bd n)).getD bd 0, t.shape,
            removeAt (strides (insertAt ms bd n)) bd⟩ t) := by
      show (i0 + 1, writeView buf
        (narrowDiffs (View.squeeze (View.narrow ⟨0, insertAt ms bd n,
          strides (insertAt ms bd n)⟩ (mergeSliceDim (insertAt ms bd n) batchDim) i0 1)
          (mergeSliceDim (insertAt ms bd n) batchDim)) df t) t) = _
      rw [hbdim, hv0, narrowDiffs_spec t df _ (by simpa using hft.1.symm)
        (fun j hj hdf => by simpa using (hft.2.2 j (by rw [← hft.1]; exact hj) hdf).symm)]
    have hfold : List.foldl (mergeStep (insertAt ms bd n) df batchDim) (i0, buf) (t :: lt)
        = List.foldl (mergeStep (insertAt ms bd n) df batchDim)
          (i0 + 1, writeView buf ⟨i0 * (strides (insertAt ms bd n)).getD bd 0, t.shape,
            removeAt (strides (insertAt ms bd n)) bd⟩ t) lt := by
      rw [List.foldl_cons, hstep]
    have hwlen : (writeView buf ⟨i0 * (strides (insertAt ms bd n)).getD bd 0, t.shape,
        removeAt (strides (insertAt ms bd n)) bd⟩ t).length = (insertAt ms bd n).prod := by
      rw [writeView_length, hbuf]
    obtain ⟨ih1, ih2, ih3⟩ := ih (i0 + 1)
      (by simp only [List.length_cons] at hin; omega) hflt
      (writeView buf ⟨i0 * (strides (insertAt ms bd n)).getD bd 0, t.shape,
        removeAt (strides (insertAt ms bd n)) bd⟩ t)
      hwlen
    obtain ⟨hwa, hwb⟩ := writeView_step (i := i0) (n := n) hbd hi0 hft.1
      hft.2.1 hbuf
    have hmem_lt : ∀ k, k < lt.length → (lt.getD k ⟨[], []⟩) ∈ lt := by
      intro k hk
      rw [List.getD_eq_getElem _ _ hk]
      exact List.getElem_mem _
    have hdisj : ∀ c, insideB c t.shape = true → ∀ k, k < lt.length → ∀ c',
        insideB c' ((lt.getD k ⟨[], []⟩).shape) = true →
        dotL (insertAt c bd i0) (strides (insertAt ms bd n))
          ≠ dotL (insertAt c' bd (i0 + 1 + k)) (strides (insertAt ms bd n)) := by
      intro c hc k hk c' hc' heq
      have hftk := hflt _ (hmem_lt k hk)
      have h1 : insideB (insertAt c bd i0) (insertAt ms bd n) = true := by
        refine insideB_insertAt_of hbd hi0 (by rw [insideB_length hc, hft.1]) ?_
        intro j hj
        exact lt_of_lt_of_le (insideB_getD hc (by rw [hft.1]; omega)) (hft.2.1 j hj)
      have h2 : insideB (insertAt c' bd (i0 + 1 + k)) (insertAt ms bd n) = true := by
        refine insideB_insertAt_of hbd ?_ (by rw [insideB_length hc', hftk.1]) ?_
        · simp only [List.length_cons] at hin; omega
        · intro j hj
          exact lt_of_lt_of_le (insideB_getD hc' (by rw [hftk.1]; omega)) (hftk.2.1 j hj)
      have := dotL_strides_inj h1 h2 heq
      have hbdc := congrArg (fun l => l.getD bd 0) this
      simp only at hbdc
      rw [getD_insertAt_self (by rw [insideB_length hc, hft.1]; omega) _ _,
        getD_insertAt_self (by rw [insideB_length hc', hftk.1]; omega) _ _] at hbdc
      omega
    refine ⟨?_, ?_, ?_⟩
    · rw [hfold, ih1, writeView_length]
    · intro k hk c hc
      match k with
      | 0 =>
        simp only [List.getD_cons_zero] at hc ⊢
        rw [hfold, Nat.add_zero]
        rw [ih3 _ ?_]
        · exact hwa c hc
        · intro k' hk' c' hc'
          exact hdisj c hc k' hk' c' hc'
      | k' + 1 =>
        simp only [List.getD_cons_succ] at hc ⊢
        rw [hfold, show i0 + (k' + 1) = (i0 + 1) + k' by omega]
        exact ih2 k' (by simpa using hk) c hc
    · intro p hp
      rw [hfold, ih3 _ ?_, hwb p ?_]
      · intro c hc
        have := hp 0 (by simp) c (by simpa using hc)
        simpa using this
      · intro k' hk' c' hc'
        have := hp (k' + 1) (by simpa using hk') c' (by simpa using hc')
        rw [show i0 + (k' + 1) = (i0 + 1) + k' by omega] at this
        exact this

theorem getD_replicate {n p : Nat} (h : p < n) (a d : α) :
    (List.replicate n a).getD p d = a := by
  rw [List.getD_eq_getElem _ _ (by simpa using h)]
  exact List.getElem_replicate _ _

/-- Shared workhorse: the merge recovers every element inside its extent and
pads every uncovered cell, for an arbitrary equal-rank batch. -/
theorem mergePadded_spec (b : Tensor) (rest : List Tensor) (pad : Int)
    (batchDim : Nat)
    (hr : ∀ t ∈ b :: rest, t.shape.length = b.shape.length)
    (hd : ∀ t ∈ b :: rest, t.data.length = t.shape.prod)
    (hbd : batchDim ≤ b.shape.length)
    (hone : ∃ k, ∀ t ∈ b :: rest, ∀ j, j < b.shape.length → j ≠ k →
      t.shape.getD j 0 = b.shape.getD j 0) :
    (∀ i, i < (b :: rest).length → ∀ c,
      insideB c (((b :: rest).getD i b).shape) = true →
      (mergeVarLenArray (b :: rest) pad batchDim).get (insertAt c batchDim i)
        = ((b :: rest).getD i b).get c) ∧
    (∀ v, insideB v (mergeVarLenArray (b :: rest) pad batchDim).shape = true →
      insideB (removeAt v batchDim) (((b :: rest).getD (v.getD batchDim 0) b).shape) = false →
      (mergeVarLenArray (b :: rest) pad batchDim).get v = pad) := by
  clear hd hone
  obtain ⟨hms_len, hdf_len, hle, heqf⟩ := measure_spec hr
  have hbd' : batchDim ≤ (measureArrayMaxDim (b :: rest)).1.length := by omega
  have hslen : (insertAt (measureArrayMaxDim (b :: rest)).1 batchDim
      (b :: rest).length).length = (measureArrayMaxDim (b :: rest)).1.length + 1 :=
    length_insertAt _ _ _
  have hbdim : mergeSliceDim (insertAt (measureArrayMaxDim (b :: rest)).1 batchDim
      (b :: rest).length) batchDim = batchDim := by
    unfold mergeSliceDim
    rw [if_pos (by omega)]
  have hprod : (insertAt (measureArrayMaxDim (b :: rest)).1 batchDim
      (b :: rest).length).foldl (· * ·) 1
      = (insertAt (measureArrayMaxDim (b :: rest)).1 batchDim (b :: rest).length).prod :=
    List.prod_eq_foldl.symm
  have hbuf0 : (List.replicate ((insertAt (measureArrayMaxDim (b :: rest)).1 batchDim
      (b :: rest).length).foldl (· * ·) 1) pad).length
      = (insertAt (measureArrayMaxDim (b :: rest)).1 batchDim (b :: rest).length).prod := by
    rw [List.length_replicate, hprod]
  have hfit : ∀ t ∈ b :: rest, t.shape.length = (measureArrayMaxDim (b :: rest)).1.length ∧
      (∀ j, j < (measureArrayMaxDim (b :: rest)).1.length →
        t.shape.getD j 0 ≤ (measureArrayMaxDim (b :: rest)).1.getD j 0) ∧
      (∀ j, j < (measureArrayMaxDim (b :: rest)).1.length →
        (measureArrayMaxDim (b :: rest)).2.getD j false = false →
        t.shape.getD j 0 = (measureArrayMaxDim (b :: rest)).1.getD j 0) := by
    intro t ht
    refine ⟨by rw [hr t ht, hms_len], ?_, ?_⟩
    · intro j hj
      exact hle t ht j (by omega)
    · intro j hj hflag
      exact heqf j (by omega) hflag t ht
  obtain ⟨hb1, hb2, hb3⟩ := mergeLoop_spec hbd' hbdim (b :: rest) 0 (by omega) hfit _ hbuf0
  have hout : mergeVarLenArray (b :: rest) pad batchDim
      = ⟨insertAt (measureArrayMaxDim (b :: rest)).1 batchDim (b :: rest).length,
         ((b :: rest).foldl (mergeStep (insertAt (measureArrayMaxDim (b :: rest)).1 batchDim
             (b :: rest).length) (measureArrayMaxDim (b :: rest)).2 batchDim)
           (0, List.replicate ((insertAt (measureArrayMaxDim (b :: rest)).1 batchDim
             (b :: rest).length).foldl (· * ·) 1) pad)).2⟩ := rfl
  have hgetd_mem : ∀ i, i < (b :: rest).length → (b :: rest).getD i b ∈ b :: rest := by
    intro i hi
    rw [List.getD_eq_getElem _ _ hi]
    exact List.getElem_mem _
  have hgetd_eq : ∀ i, i < (b :: rest).length →
      (b :: rest).getD i b = (b :: rest).getD i ⟨[], []⟩ := by
    intro i hi
    rw [List.getD_eq_getElem _ _ hi, List.getD_eq_getElem _ _ hi]
  constructor
  · intro i hi c hc
    rw [hgetd_eq i hi] at hc ⊢
    have := hb2 i hi c hc
    rw [Nat.zero_add] at this
    rw [hout]
    exact this
  · intro v hins hnotin
    have hshape : (mergeVarLenArray (b :: rest) pad batchDim).shape
        = insertAt (measureArrayMaxDim (b :: rest)).1 batchDim (b :: rest).length := rfl
    rw [hshape] at hins
    obtain ⟨hvdec, hvlt, hvin⟩ := insideB_decomp hbd' hins
    rw [hgetd_eq _ hvlt] at hnotin
    have hp : (mergeVarLenArray (b :: rest) pad batchDim).get v
        = (((b :: rest).foldl (mergeStep (insertAt (measureArrayMaxDim (b :: rest)).1 batchDim
             (b :: rest).length) (measureArrayMaxDim (b :: rest)).2 batchDim)
           (0, List.replicate ((insertAt (measureArrayMaxDim (b :: rest)).1 batchDim
             (b :: rest).length).foldl (· * ·) 1) pad)).2).getD
          (dotL v (strides (insertAt (measureArrayMaxDim (b :: rest)).1 batchDim
             (b :: rest).length))) 0 := rfl
    rw [hp, hb3 _ ?_]
    · rw [getD_replicate (by rw [hprod]; exact dotL_strides_lt hins) pad 0]
    · intro k hk c' hc'
      intro heq
      have hftk := hfit _ (hgetd_mem k hk)
      rw [← hgetd_eq k hk] at hc'
      have h2 : insideB (insertAt c' batchDim (0 + k))
          (insertAt (measureArrayMaxDim (b :: rest)).1 batchDim (b :: rest).length) = true := by
        refine insideB_insertAt_of hbd' (by omega) (by rw [insideB_length hc', hftk.1]) ?_
        intro j hj
        exact lt_of_lt_of_le (insideB_getD hc' (by rw [hftk.1]; omega)) (hftk.2.1 j hj)
      have hveq := dotL_strides_inj hins h2 heq
      have hbdc := congrArg (fun l => l.getD batchDim 0) hveq
      simp only at hbdc
      rw [getD_insertAt_self (by rw [insideB_length hc', hftk.1]; omega) _ _] at hbdc
      have hk_eq : k = v.getD batchDim 0 := by omega
      have hc_eq : removeAt v batchDim = c' := by
        have := congrArg (fun l => removeAt l batchDim) hveq
        simp only at this
        rw [removeAt_insertAt (l := c') (by rw [insideB_length hc', hftk.1]; omega) _] at this
        exact this
      rw [← hk_eq, ← hgetd_eq k hk, hc_eq] at hnotin
      rw [hnotin] at hc'
      exact Bool.false_ne_true hc'

/-- C1: for every non-empty batch of equal-rank tensors that vary in size
along only one dimension, merging with a given `pad_value` produces an output
from which each element `i`'s data is recovered exactly by reading the output
at batch index `i` within element `i`'s original extent, and every output
cell not covered by an element's data equals the pad value. -/
theorem c1_merge_recovery_and_padding (b : Tensor) (rest : List Tensor) (pad : Int)
    (batchDim : Nat)
    (hr : ∀ t ∈ b :: rest, t.shape.length = b.shape.length)
    (hd : ∀ t ∈ b :: rest, t.data.length = t.shape.prod)
    (hbd : batchDim ≤ b.shape.length)
    (hone : ∃ k, ∀ t ∈ b :: rest, ∀ j, j < b.shape.length → j ≠ k →
      t.shape.getD j 0 = b.shape.getD j 0) :
    (∀ i, i < (b :: rest).length → ∀ c,
      insideB c (((b :: rest).getD i b).shape) = true →
      (mergeVarLenArray (b :: rest) pad batchDim).get (insertAt c batchDim i)
        = ((b :: rest).getD i b).get c) ∧
    (∀ v, insideB v (mergeVarLenArray (b :: rest) pad batchDim).shape = true →
      insideB (removeAt v batchDim) (((b :: rest).getD (v.getD batchDim 0) b).shape) = false →
      (mergeVarLenArray (b :: rest) pad batchDim).get v = pad) :=
  mergePadded_spec b rest pad batchDim hr hd hbd hone

/-- Witness for C1 at the concrete batch `[(2,), (3,)]` with pad 7 and
batch dimension 1: element 0's entry at index 1 is recovered, and the
uncovered cell `(2, 0)` holds the pad value. -/
theorem c1_merge_recovery_and_padding_witness :
    (mergeVarLenArray [⟨[2], [10, 20]⟩, ⟨[3], [30, 40, 50]⟩] 7 1).get (insertAt [1] 1 0)
      = (Tensor.mk [2] [10, 20]).get [1] ∧
    (mergeVarLenArray [⟨[2], [10, 20]⟩, ⟨[3], [30, 40, 50]⟩] 7 1).get [2, 0] = 7 := by
  have h := c1_merge_recovery_and_padding ⟨[2], [10, 20]⟩ [⟨[3], [30, 40, 50]⟩] 7 1
    (by decide) (by decide) (by decide) ⟨0, by decide⟩
  exact ⟨h.1 0 (by decide) [1] (by decide), h.2 [2, 0] (by decide) (by decide)⟩

/-- C2: merging a batch of a 1-D tensor of shape `(3,)` followed by a 1-D
tensor of shape `(5,)` with pad 0 and batch dimension 1 yields shape
`(5, 2)`; rows 0-2 of column 0 hold element 0's values, rows 3-4 of
column 0 hold zeros, and column 1 equals element 1. -/
theorem c2_pair_3_5 (e0 e1 : Tensor) (h0 : e0.shape = [3]) (h0d : e0.data.length = 3)
    (h1 : e1.shape = [5]) (h1d : e1.data.length = 5) :
    (mergeVarLenArray [e0, e1] 0 1).shape = [5, 2] ∧
    (∀ t, t < 3 → (mergeVarLenArray [e0, e1] 0 1).get [t, 0] = e0.get [t]) ∧
    (∀ t, 3 ≤ t → t < 5 → (mergeVarLenArray [e0, e1] 0 1).get [t, 0] = 0) ∧
    (∀ t, t < 5 → (mergeVarLenArray [e0, e1] 0 1).get [t, 1] = e1.get [t]) := by
  have hms1 : (measureArrayMaxDim [e0, e1]).1 = [5] := by
    show (measureStep (e0.shape, List.replicate e0.shape.length false) e1).1 = [5]
    rw [measureStep, h0, h1]
    rfl
  have hshape : (mergeVarLenArray [e0, e1] 0 1).shape = [5, 2] := by
    show insertAt (measureArrayMaxDim [e0, e1]).1 1 ([e0, e1].length) = [5, 2]
    rw [hms1]
    rfl
  obtain ⟨hrec, hpad⟩ := mergePadded_spec e0 [e1] 0 1
    (by
      intro t ht
      simp only [List.mem_cons, List.not_mem_nil, or_false] at ht
      rcases ht with rfl | rfl
      · rfl
      · rw [h0, h1]
        rfl)
    (by
      intro t ht
      simp only [List.mem_cons, List.not_mem_nil, or_false] at ht
      rcases ht with rfl | rfl
      · rw [h0, h0d]; rfl
      · rw [h1, h1d]; rfl)
    (by rw [h0]; exact le_refl 1)
    ⟨0, by
      intro t ht j hj hne
      rw [h0] at hj
      simp only [List.length_cons, List.length_nil] at hj
      omega⟩
  refine ⟨hshape, ?_, ?_, ?_⟩
  · intro t ht
    have h := hrec 0 (by simp) [t] (by
      show insideB [t] e0.shape = true
      rw [h0]
      show (decide (t < 3) && true) = true
      simp [ht])
    have hidx : insertAt [t] 1 0 = [t, 0] := rfl
    rw [hidx] at h
    exact h
  · intro t ht1 ht2
    have hv : ∀ tv : Nat, tv < 5 → 3 ≤ tv →
        (mergeVarLenArray [e0, e1] 0 1).get [tv, 0] = 0 := by
      intro tv htv5 htv3
      refine hpad [tv, 0] ?_ ?_
      · rw [hshape]
        show (decide (tv < 5) && (decide (0 < 2) && true)) = true
        simp [htv5]
      · show insideB [tv] e0.shape = false
        rw [h0]
        show (decide (tv < 3) && true) = false
        simp
        omega
    exact hv t ht2 ht1
  · intro t ht
    have h := hrec 1 (by simp) [t] (by
      show insideB [t] e1.shape = true
      rw [h1]
      show (decide (t < 5) && true) = true
      simp [ht])
    have hidx : insertAt [t] 1 1 = [t, 1] := rfl
    rw [hidx] at h
    exact h

/-- Witness for C2 at the concrete batch `[(1,2,3), (4,5,6,7,8)]`. -/
theorem c2_pair_3_5_witness :
    (mergeVarLenArray [⟨[3], [1, 2, 3]⟩, ⟨[5], [4, 5, 6, 7, 8]⟩] 0 1).shape = [5, 2] ∧
    (mergeVarLenArray [⟨[3], [1, 2, 3]⟩, ⟨[5], [4, 5, 6, 7, 8]⟩] 0 1).get [1, 0]
      = (Tensor.mk [3] [1, 2, 3]).get [1] ∧
    (mergeVarLenArray [⟨[3], [1, 2, 3]⟩, ⟨[5], [4, 5, 6, 7, 8]⟩] 0 1).get [3, 0] = 0 ∧
    (mergeVarLenArray [⟨[3], [1, 2, 3]⟩, ⟨[5], [4, 5, 6, 7, 8]⟩] 0 1).get [4, 1]
      = (Tensor.mk [5] [4, 5, 6, 7, 8]).get [4] := by
  have h := c2_pair_3_5 ⟨[3], [1, 2, 3]⟩ ⟨[5], [4, 5, 6, 7, 8]⟩ rfl rfl rfl rfl
  exact ⟨h.1, h.2.1 1 (by decide), h.2.2.1 3 (by decide) (by decide), h.2.2.2 4 (by decide)⟩

/-- C8: inside the merge, the output slice for a batch element is taken along
dimension `batch_dim` whenever `batch_dim` is within the output's rank
(equivalently, does not exceed the elements' rank), and the slicing falls
back to dimension 0 exactly when `batch_dim` exceeds the elements' rank. -/
theorem c8_slice_dim_fallback (b : Tensor) (rest : List Tensor) (batchDim : Nat)
    (hr : ∀ t ∈ b :: rest, t.shape.length = b.shape.length) :
    (batchDim ≤ b.shape.length →
      mergeSliceDim (mergeOutShape (b :: rest) batchDim) batchDim = batchDim) ∧
    (b.shape.length < batchDim →
      mergeSliceDim (mergeOutShape (b :: rest) batchDim) batchDim = 0) ∧
    (mergeSliceDim (mergeOutShape (b :: rest) batchDim) batchDim ≠ batchDim →
      b.shape.length < batchDim) := by
  obtain ⟨hms_len, _, _, _⟩ := measure_spec hr
  have hlen : (mergeOutShape (b :: rest) batchDim).length = b.shape.length + 1 := by
    show (insertAt (measureArrayMaxDim (b :: rest)).1 batchDim (b :: rest).length).length = _
    rw [length_insertAt, hms_len]
  refine ⟨?_, ?_, ?_⟩
  · intro h
    unfold mergeSliceDim
    rw [if_pos (by omega)]
  · intro h
    unfold mergeSliceDim
    rw [if_neg (by omega)]
  · intro h
    rcases le_or_lt batchDim b.shape.length with hle | hlt
    · exact absurd (by unfold mergeSliceDim; rw [if_pos (by omega)]) h
    · exact hlt

/-- Witness for C8: with rank-1 elements, `batch_dim = 1` is kept while
`batch_dim = 5` falls back to dimension 0. -/
theorem c8_slice_dim_fallback_witness :
    mergeSliceDim (mergeOutShape [(⟨[2], [10, 20]⟩ : Tensor)] 1) 1 = 1 ∧
    mergeSliceDim (mergeOutShape [(⟨[2], [10, 20]⟩ : Tensor)] 5) 5 = 0 := by
  refine ⟨?_, ?_⟩
  · exact (c8_slice_dim_fallback ⟨[2], [10, 20]⟩ [] 1 (by decide)).1 (by decide)
  · exact (c8_slice_dim_fallback ⟨[2], [10, 20]⟩ [] 5 (by decide)).2.1 (by decide)

/-- Behaviour of `_process_word` by cases on the dict lookup (shared by the
encoding claims). -/
theorem processWord_spec (v : WordVocabulary) :
    (∀ w i, alookup w v.words = some i →
      (v.unk_index = some i ∧ v.allow_any_word = false →
        v.processWord w = .error .unknownWord) ∧
      (v.unk_index ≠ some i ∨ v.allow_any_word = true →
        v.processWord w = .ok (some i))) ∧
    (∀ w, alookup w v.words = none →
      (v.allow_any_word = false → v.processWord w = .error .unknownWord) ∧
      (v.allow_any_word = true → v.processWord w = .ok v.unk_index)) := by
  constructor
  · intro w i hw
    constructor
    · rintro ⟨h1, h2⟩
      unfold WordVocabulary.processWord
      rw [hw, h1, h2]
      simp
    · intro h
      unfold WordVocabulary.processWord
      rw [hw, if_pos]
      rcases h with h | h
      · exact Or.inl (fun hc => h hc.symm)
      · exact Or.inr h
  · intro w hw
    constructor
    · intro h
      unfold WordVocabulary.processWord
      rw [hw, h]
      simp
    · intro h
      unfold WordVocabulary.processWord
      rw [hw, h, if_pos (Or.inr rfl)]

/-! ### Vocabulary claims -/

/-- C3 (code bug): `CharVocabulary.__add__` unions the tables' index values
(`to_index.values()`) instead of their characters: the union of the
vocabularies over `{'a'}` and `{'b'}` has key set `{0}` and contains neither
input character, so the union is not a vocabulary over the merged
alphabet. -/
theorem c3_union_uses_values_bug :
    (CharVocabulary.add (mkCharVocabulary (some [.kChar 'a']) none 0)
      (mkCharVocabulary (some [.kChar 'b']) none 0)).to_index
      = [(PyKey.kNat 0, 0)] ∧
    alookup (PyKey.kChar 'a')
      (CharVocabulary.add (mkCharVocabulary (some [.kChar 'a']) none 0)
        (mkCharVocabulary (some [.kChar 'b']) none 0)).to_index = none ∧
    alookup (PyKey.kChar 'b')
      (CharVocabulary.add (mkCharVocabulary (some [.kChar 'a']) none 0)
        (mkCharVocabulary (some [.kChar 'b']) none 0)).to_index = none := by
  decide

/-- C4 (code bug): a fresh `WordVocabulary` maps `<pad>` to 0 and index 0
decodes to `<pad>`, but the union `WordVocabulary() + WordVocabulary()`
re-adds `<pad>` through `_add_set` and remaps it to index 1, contradicting
the source comment "always map <pad> to 0!". -/
theorem c4_union_remaps_pad :
    alookup "<pad>" (mkWordVocabulary none false true).words = some 0 ∧
    alookup (0 : Int) (mkWordVocabulary none false true).inv_words = some "<pad>" ∧
    alookup "<pad>" (WordVocabulary.add (mkWordVocabulary none false true)
      (mkWordVocabulary none false true)).words = some 1 ∧
    alookup (0 : Int) (WordVocabulary.add (mkWordVocabulary none false true)
      (mkWordVocabulary none false true)).inv_words = some "<pad>" := by
  decide

/-- C5 counterexample: in the vocabulary built from the corpus
`[["<unk>", "a"]]` the unknown-token mapping exists (`some 1`) and
`allow_any_word` is off, yet encoding the absent word `"b"` raises
`UnknownWord` instead of returning the reserved unknown index, refuting the
claim's "fails exactly when no unknown-token mapping exists and the
allow-any-word policy is off". -/
theorem c5_encode_counterexample :
    (mkWordVocabulary (some [["<unk>", "a"]]) false true).unk_index = some 1 ∧
    (mkWordVocabulary (some [["<unk>", "a"]]) false true).allow_any_word = false ∧
    alookup "b" (mkWordVocabulary (some [["<unk>", "a"]]) false true).words = none ∧
    (mkWordVocabulary (some [["<unk>", "a"]]) false true).processWord "b"
      = .error .unknownWord :=
  ⟨by decide, by decide, by decide, by rfl⟩

/-- C5 (amended): encoding a present word returns its index unless that
index equals the unknown-token index while `allow_any_word` is off (then the
assertion fires); encoding an absent word fails exactly when
`allow_any_word` is off — regardless of whether an unknown-token mapping
exists — and otherwise returns the reserved unknown-token index. -/
theorem c5_encode_amended (v : WordVocabulary) :
    (∀ w i, alookup w v.words = some i →
      (v.unk_index = some i ∧ v.allow_any_word = false →
        v.processWord w = .error .unknownWord) ∧
      (v.unk_index ≠ some i ∨ v.allow_any_word = true →
        v.processWord w = .ok (some i))) ∧
    (∀ w, alookup w v.words = none →
      (v.allow_any_word = false → v.processWord w = .error .unknownWord) ∧
      (v.allow_any_word = true → v.processWord w = .ok v.unk_index)) :=
  processWord_spec v

/-- Witness for C5 (amended) in the `[["<unk>", "a"]]` vocabulary: the
present word `"a"` encodes to its index 2, and the absent word `"b"` fails
because `allow_any_word` is off. -/
theorem c5_encode_amended_witness :
    (mkWordVocabulary (some [["<unk>", "a"]]) false true).processWord "a" = .ok (some 2) ∧
    (mkWordVocabulary (some [["<unk>", "a"]]) false true).processWord "b"
      = .error .unknownWord := by
  exact ⟨((c5_encode_amended _).1 "a" 2 (by decide)).2 (by decide),
    ((c5_encode_amended _).2 "b" (by decide)).1 (by decide)⟩

/-- C7: decoding an index with no entry yields exactly the tagged
placeholder string embedding the index, and decoding a list of indices never
fails once the vocabulary is initialized. -/
theorem c7_decode_placeholder_total (v : WordVocabulary) :
    (∀ i : Int, alookup i v.inv_words = none →
      v.processIndex i = "<!INV: " ++ toString i ++ "!>") ∧
    (∀ l : List Int, v.initialized = true →
      v.indicesToSentence l = .ok (l.map v.processIndex)) := by
  constructor
  · intro i h
    unfold WordVocabulary.processIndex
    rw [h]
  · intro l h
    unfold WordVocabulary.indicesToSentence
    rw [if_pos h]

/-- Witness for C7: index 99 is absent from the corpus-built vocabulary and
decodes to the placeholder, and decoding `[99, 0]` succeeds. -/
theorem c7_decode_placeholder_total_witness :
    (mkWordVocabulary (some [["a", "b"], ["b", "c"]]) false true).processIndex 99
      = "<!INV: " ++ toString (99 : Int) ++ "!>" ∧
    (mkWordVocabulary (some [["a", "b"], ["b", "c"]]) false true).indicesToSentence [99, 0]
      = .ok ([99, 0].map
        (mkWordVocabulary (some [["a", "b"], ["b", "c"]]) false true).processIndex) := by
  exact ⟨(c7_decode_placeholder_total _).1 99 (by decide),
    (c7_decode_placeholder_total _).2 [99, 0] (by decide)⟩

/-- C9: calling a `WordVocabulary` on `None` or on an empty list returns the
input unchanged before any initialization check, so the call succeeds for
every vocabulary state, including one that was never finalized or loaded. -/
theorem c9_call_passthrough (v : WordVocabulary) :
    v.vocCall .argNone = .ok (.inl .argNone) ∧
    v.vocCall (.argStrs []) = .ok (.inl (.argStrs [])) ∧
    v.vocCall (.argInts []) = .ok (.inl (.argInts [])) :=
  ⟨rfl, rfl, rfl⟩

/-- C10: a `CharVocabulary` snapshot stores only the character set (the keys
of `to_index`), restoring rebuilds via `from_set` with the restoring
instance's own settings, and restoring into an instance whose `ignore_char`
is `None` assigns indices in plain sorted order regardless of any pinned
position in the saved vocabulary. -/
theorem c10_snapshot_restore (saved t : CharVocabulary) (h : t.ignore_char = none) :
    saved.stateDict = saved.to_index.map Prod.fst ∧
    t.loadStateDict saved.stateDict = t.fromSet saved.stateDict ∧
    (t.loadStateDict saved.stateDict).to_index
      = mkToIndex (sortDedupK (saved.to_index.map Prod.fst)) 0 ∧
    (t.loadStateDict saved.stateDict).from_index
      = mkFromIndex (sortDedupK (saved.to_index.map Prod.fst)) 0 := by
  refine ⟨rfl, rfl, ?_, ?_⟩
  · show mkToIndex (charOrder t.ignore_char t.ignore_char_idx saved.stateDict) 0 = _
    rw [h]
    rfl
  · show mkFromIndex (charOrder t.ignore_char t.ignore_char_idx saved.stateDict) 0 = _
    rw [h]
    rfl

/-- Witness for C10: the vocabulary over `{a, b, c}` with `b` pinned at
index 0 snapshots to its character set, and restoring into an unpinned
instance yields plain sorted order `a, b, c` even though the saved order was
`b, a, c`. -/
theorem c10_snapshot_restore_witness :
    ((mkCharVocabulary none none 0).loadStateDict
      ((mkCharVocabulary (some [.kChar 'a', .kChar 'b', .kChar 'c'])
        (some (.kChar 'b')) 0).stateDict)).to_index
      = [(PyKey.kChar 'a', 0), (PyKey.kChar 'b', 1), (PyKey.kChar 'c', 2)] ∧
    (mkCharVocabulary (some [.kChar 'a', .kChar 'b', .kChar 'c'])
      (some (.kChar 'b')) 0).to_index
      = [(PyKey.kChar 'b', 0), (PyKey.kChar 'a', 1), (PyKey.kChar 'c', 2)] :=
  ⟨(c10_snapshot_restore (mkCharVocabulary (some [.kChar 'a', .kChar 'b', .kChar 'c'])
      (some (.kChar 'b')) 0) (mkCharVocabulary none none 0) rfl).2.2.1.trans (by decide),
   by decide⟩

/-! ### Sorting and association-table lemmas for the round-trip claim -/

theorem perm_insertSorted (le : α → α → Bool) (a : α) (l : List α) :
    (insertSorted le a l).Perm (a :: l) := by
  induction l with
  | nil => exact List.Perm.refl _
  | cons b t ih =>
    unfold insertSorted
    by_cases hle : le a b = true
    · rw [if_pos hle]
    · rw [if_neg hle]
      exact (ih.cons b).trans (List.Perm.swap a b t)

theorem perm_sortBy (le : α → α → Bool) (l : List α) : (sortBy le l).Perm l := by
  induction l with
  | nil => exact List.Perm.refl _
  | cons b t ih =>
    exact (perm_insertSorted le b (sortBy le t)).trans (ih.cons b)

theorem nodup_sortBy_dedup [DecidableEq α] (le : α → α → Bool) (l : List α) :
    (sortBy le l.dedup).Nodup :=
  (perm_sortBy le l.dedup).symm.nodup (List.nodup_dedup l)

theorem mem_sortBy_dedup [DecidableEq α] (le : α → α → Bool) {a : α} {l : List α} :
    a ∈ sortBy le l.dedup ↔ a ∈ l :=
  ((perm_sortBy le l.dedup).mem_iff).trans List.mem_dedup

theorem length_wordAssoc (wl : List String) (k : Int) :
    (wordAssoc wl k).length = wl.length := by
  induction wl generalizing k with
  | nil => rfl
  | cons w t ih => simp [wordAssoc, ih]

theorem alookup_wordAssoc_of_notmem {w : String} {wl : List String} (h : w ∉ wl) (k : Int) :
    alookup w (wordAssoc wl k) = none := by
  induction wl generalizing k with
  | nil => rfl
  | cons w0 t ih =>
    unfold wordAssoc alookup
    rw [if_neg (fun hc => h (by rw [← hc]; exact List.mem_cons_self _ _))]
    exact ih (fun hc => h (List.mem_cons_of_mem _ hc)) _

theorem alookup_wordAssoc_ge {w : String} {wl : List String} {k i : Int}
    (h : alookup w (wordAssoc wl k) = some i) : k ≤ i := by
  induction wl generalizing k with
  | nil => simp [wordAssoc, alookup] at h
  | cons w0 t ih =>
    unfold wordAssoc alookup at h
    by_cases hc : w0 = w
    · rw [if_pos hc] at h
      simp only [Option.some.injEq] at h
      omega
    · rw [if_neg hc] at h
      have := ih h
      omega

theorem alookup_invAssoc_of_ge {wl : List String} {k i : Int}
    (h : k + wl.length ≤ i) : alookup i (invAssoc wl k) = none := by
  induction wl generalizing k with
  | nil => rfl
  | cons w0 t ih =>
    unfold invAssoc alookup
    rw [if_neg (by simp only [List.length_cons] at h; push_cast at h; omega)]
    refine ih ?_
    simp only [List.length_cons] at h
    push_cast at h ⊢
    omega

theorem wordAssoc_snoc (wl : List String) (w : String) (k : Int) :
    wordAssoc (wl ++ [w]) k = wordAssoc wl k ++ [(w, k + wl.length)] := by
  induction wl generalizing k with
  | nil => simp [wordAssoc]
  | cons w0 t ih =>
    show (w0, k) :: wordAssoc (t ++ [w]) (k + 1)
      = ((w0, k) :: wordAssoc t (k + 1)) ++ [(w, k + ((w0 :: t).length : Int))]
    rw [List.cons_append, ih]
    have hc : k + 1 + (t.length : Int) = k + ((w0 :: t).length : Int) := by
      simp only [List.length_cons]
      push_cast
      ring
    rw [hc]

theorem invAssoc_snoc (wl : List String) (w : String) (k : Int) :
    invAssoc (wl ++ [w]) k = invAssoc wl k ++ [(k + wl.length, w)] := by
  induction wl generalizing k with
  | nil => simp [invAssoc]
  | cons w0 t ih =>
    show (k, w0) :: invAssoc (t ++ [w]) (k + 1)
      = ((k, w0) :: invAssoc t (k + 1)) ++ [(k + ((w0 :: t).length : Int), w)]
    rw [List.cons_append, ih]
    have hc : k + 1 + (t.length : Int) = k + ((w0 :: t).length : Int) := by
      simp only [List.length_cons]
      push_cast
      ring
    rw [hc]

theorem assoc_inverse {wl : List String} (hnd : wl.Nodup) {k i : Int} {w : String}
    (h : alookup w (wordAssoc wl k) = some i) : alookup i (invAssoc wl k) = some w := by
  induction wl generalizing k with
  | nil => simp [wordAssoc, alookup] at h
  | cons w0 t ih =>
    unfold wordAssoc alookup at h
    unfold invAssoc alookup
    by_cases hc : w0 = w
    · rw [if_pos hc] at h
      simp only [Option.some.injEq] at h
      rw [if_pos h, hc]
    · rw [if_neg hc] at h
      have hge := alookup_wordAssoc_ge h
      rw [if_neg (by omega)]
      exact ih (List.nodup_cons.mp hnd).2 h

theorem addWord_fresh {v : WordVocabulary} {wl : List String}
    (hW : v.words = wordAssoc wl 0) (hI : v.inv_words = invAssoc wl 0)
    {w : String} (hw : w ∉ wl) :
    (v.addWord w).words = wordAssoc (wl ++ [w]) 0 ∧
    (v.addWord w).inv_words = invAssoc (wl ++ [w]) 0 := by
  constructor
  · show insertAssoc v.words w (v.words.length : Int) = _
    rw [hW, length_wordAssoc]
    unfold insertAssoc
    rw [alookup_wordAssoc_of_notmem hw, wordAssoc_snoc]
    simp
  · show insertAssoc v.inv_words (v.words.length : Int) w = _
    rw [hW, hI, length_wordAssoc]
    unfold insertAssoc
    rw [alookup_invAssoc_of_ge (by omega), invAssoc_snoc]
    simp

theorem addWords_fields (ws : List String) (v : WordVocabulary) :
    (v.addWords ws).allow_any_word = v.allow_any_word ∧
    (v.addWords ws).initialized = v.initialized ∧
    (v.addWords ws).unk_index = v.unk_index := by
  induction ws generalizing v with
  | nil => exact ⟨rfl, rfl, rfl⟩
  | cons w t ih => exact ih (v.addWord w)

theorem addWords_fresh {ws : List String} {v : WordVocabulary} {wl : List String}
    (hW : v.words = wordAssoc wl 0) (hI : v.inv_words = invAssoc wl 0)
    (hnd : (wl ++ ws).Nodup) :
    (v.addWords ws).words = wordAssoc (wl ++ ws) 0 ∧
    (v.addWords ws).inv_words = invAssoc (wl ++ ws) 0 := by
  induction ws generalizing v wl with
  | nil => simpa using ⟨hW, hI⟩
  | cons w t ih =>
    have hw : w ∉ wl := by
      have := List.nodup_middle.mp hnd
      exact fun hc => (List.nodup_cons.mp this).1 (List.mem_append_left _ hc)
    obtain ⟨h1, h2⟩ := addWord_fresh hW hI hw
    have hnd' : ((wl ++ [w]) ++ t).Nodup := by
      rwa [List.append_cons] at hnd
    have := ih h1 h2 hnd'
    rwa [List.append_assoc, List.singleton_append] at this

theorem mkWordVocabulary_corpus_struct (corpus : List (List String)) (allow split : Bool)
    (hpad : "<pad>" ∉ corpus.flatten) :
    ∃ wl : List String, wl.Nodup ∧
      (mkWordVocabulary (some corpus) allow split).words = wordAssoc wl 0 ∧
      (mkWordVocabulary (some corpus) allow split).inv_words = invAssoc wl 0 ∧
      (mkWordVocabulary (some corpus) allow split).initialized = true := by
  refine ⟨"<pad>" :: sortDedup corpus.flatten, ?_, ?_, ?_, rfl⟩
  · rw [List.nodup_cons]
    refine ⟨fun hc => hpad ((mem_sortBy_dedup strLe).mp hc), nodup_sortBy_dedup _ _⟩
  · have hW0 : (mkWordVocabulary none allow split).words = wordAssoc ["<pad>"] 0 := rfl
    have hI0 : (mkWordVocabulary none allow split).inv_words = invAssoc ["<pad>"] 0 := rfl
    exact (addWords_fresh hW0 hI0
      (by rw [List.singleton_append, List.nodup_cons]
          exact ⟨fun hc => hpad ((mem_sortBy_dedup strLe).mp hc), nodup_sortBy_dedup _ _⟩)).1
  · have hW0 : (mkWordVocabulary none allow split).words = wordAssoc ["<pad>"] 0 := rfl
    have hI0 : (mkWordVocabulary none allow split).inv_words = invAssoc ["<pad>"] 0 := rfl
    exact (addWords_fresh hW0 hI0
      (by rw [List.singleton_append, List.nodup_cons]
          exact ⟨fun hc => hpad ((mem_sortBy_dedup strLe).mp hc), nodup_sortBy_dedup _ _⟩)).2

theorem nodup_charOrder (ig : Option PyKey) (igx : Nat) (chars : List PyKey) :
    (charOrder ig igx chars).Nodup := by
  cases ig with
  | none => exact nodup_sortBy_dedup _ _
  | some g =>
    show ((sortDedupK (chars.filter (fun c => c ≠ g))).take igx
      ++ g :: (sortDedupK (chars.filter (fun c => c ≠ g))).drop igx).Nodup
    rw [List.nodup_middle, List.take_append_drop, List.nodup_cons]
    constructor
    · intro hc
      have := (mem_sortBy_dedup pyKeyLe).mp hc
      simp only [List.mem_filter, decide_eq_true_eq] at this
      exact this.2 rfl
    · exact nodup_sortBy_dedup _ _

theorem alookup_mkToIndex_ge {c : PyKey} {cs : List PyKey} {k i : Nat}
    (h : alookup c (mkToIndex cs k) = some i) : k ≤ i := by
  induction cs generalizing k with
  | nil => simp [mkToIndex, alookup] at h
  | cons c0 t ih =>
    unfold mkToIndex alookup at h
    by_cases hc : c0 = c
    · rw [if_pos hc] at h
      simp only [Option.some.injEq] at h
      omega
    · rw [if_neg hc] at h
      have := ih h
      omega

theorem charAssoc_inverse {cs : List PyKey} (hnd : cs.Nodup) {k i : Nat} {c : PyKey}
    (h : alookup c (mkToIndex cs k) = some i) : alookup i (mkFromIndex cs k) = some c := by
  induction cs generalizing k with
  | nil => simp [mkToIndex, alookup] at h
  | cons c0 t ih =>
    unfold mkToIndex alookup at h
    unfold mkFromIndex alookup
    by_cases hc : c0 = c
    · rw [if_pos hc] at h
      simp only [Option.some.injEq] at h
      rw [if_pos h, hc]
    · rw [if_neg hc] at h
      have hge := alookup_mkToIndex_ge h
      rw [if_neg (by omega)]
      exact ih (List.nodup_cons.mp hnd).2 h

theorem mapM_except_ok {α β ε : Type} (f : α → Except ε β) (g : α → β) (l : List α)
    (h : ∀ a ∈ l, f a = .ok (g a)) : l.mapM f = .ok (l.map g) := by
  induction l with
  | nil => rfl
  | cons a t ih =>
    rw [List.mapM_cons, h a (List.mem_cons_self _ _),
      ih (fun a' ha' => h a' (List.mem_cons_of_mem _ ha'))]
    rfl

/-- C6 counterexample: the union of two corpus vocabularies over `["a"]` is
finalized and knows the token `<pad>` (remapped to index 1 by the `<pad>`
re-add inside `__add__`), yet `decode(encode(["<pad>"]))` returns `["a"]`,
not `["<pad>"]` — so the round trip fails on a finalized vocabulary and a
sentence of known tokens. -/
theorem c6_roundtrip_counterexample :
    (WordVocabulary.add (mkWordVocabulary (some [["a"]]) false true)
      (mkWordVocabulary (some [["a"]]) false true)).initialized = true ∧
    alookup "<pad>" (WordVocabulary.add (mkWordVocabulary (some [["a"]]) false true)
      (mkWordVocabulary (some [["a"]]) false true)).words = some 1 ∧
    (WordVocabulary.add (mkWordVocabulary (some [["a"]]) false true)
      (mkWordVocabulary (some [["a"]]) false true)).sentenceToIndices ["<pad>"]
      = .ok [some 1] ∧
    (WordVocabulary.add (mkWordVocabulary (some [["a"]]) false true)
      (mkWordVocabulary (some [["a"]]) false true)).indicesToSentence [1] = .ok ["a"] ∧
    ("a" : String) ≠ "<pad>" :=
  ⟨by decide, by decide, by rfl, by rfl, by decide⟩

/-- C6 (amended): the round trip `decode(encode(s)) = s` holds for every
`WordVocabulary` built fresh from a corpus of token lists that never contain
the reserved token `<pad>`, on every sentence of known tokens that do not
trip the unknown-word assertion; and for every `CharVocabulary` built from a
character set via `from_set`, on every string over its alphabet. -/
theorem c6_roundtrip_amended :
    (∀ (corpus : List (List String)) (allow split : Bool) (s : List String),
      "<pad>" ∉ corpus.flatten →
      (∀ w ∈ s,
        (alookup w (mkWordVocabulary (some corpus) allow split).words).isSome = true ∧
        (alookup w (mkWordVocabulary (some corpus) allow split).words
            = (mkWordVocabulary (some corpus) allow split).unk_index →
          (mkWordVocabulary (some corpus) allow split).allow_any_word = true)) →
      ∃ ids : List Int,
        (mkWordVocabulary (some corpus) allow split).sentenceToIndices s
          = .ok (ids.map some) ∧
        (mkWordVocabulary (some corpus) allow split).indicesToSentence ids = .ok s) ∧
    (∀ (ig : Option PyKey) (igx : Nat) (chars : List PyKey) (s : String),
      (∀ c ∈ s.data,
        (alookup (PyKey.kChar c) (mkCharVocabulary (some chars) ig igx).to_index).isSome
          = true) →
      ∃ ids : List Nat,
        (mkCharVocabulary (some chars) ig igx).strToInd s = .ok ids ∧
        (mkCharVocabulary (some chars) ig igx).indToStr ids = .ok s) := by
  constructor
  · intro corpus allow split s hpad hs
    obtain ⟨wl, hnd, hW, hI, hInit⟩ := mkWordVocabulary_corpus_struct corpus allow split hpad
    refine ⟨s.map (fun w =>
      (alookup w (mkWordVocabulary (some corpus) allow split).words).getD 0), ?_, ?_⟩
    · unfold WordVocabulary.sentenceToIndices
      rw [if_pos hInit, List.map_map]
      apply mapM_except_ok
      intro w hw
      obtain ⟨h1, h2⟩ := hs w hw
      obtain ⟨i, hi⟩ := Option.isSome_iff_exists.mp h1
      have hcond : (mkWordVocabulary (some corpus) allow split).unk_index ≠ some i ∨
          (mkWordVocabulary (some corpus) allow split).allow_any_word = true := by
        by_cases hu : (mkWordVocabulary (some corpus) allow split).unk_index = some i
        · exact Or.inr (h2 (hi.trans hu.symm))
        · exact Or.inl hu
      have := ((processWord_spec _).1 w i hi).2 hcond
      rw [this]
      simp [hi]
    · unfold WordVocabulary.indicesToSentence
      rw [if_pos hInit, List.map_map]
      refine congrArg Except.ok ?_
      have hback : ∀ w ∈ s, (mkWordVocabulary (some corpus) allow split).processIndex
          ((alookup w (mkWordVocabulary (some corpus) allow split).words).getD 0) = w := by
        intro w hw
        obtain ⟨h1, _⟩ := hs w hw
        obtain ⟨i, hi⟩ := Option.isSome_iff_exists.mp h1
        rw [hi]
        simp only [Option.getD_some]
        have hwa : alookup w (wordAssoc wl 0) = some i := by rw [← hW]; exact hi
        have hinv := assoc_inverse hnd hwa
        unfold WordVocabulary.processIndex
        rw [hI, hinv]
      calc s.map ((mkWordVocabulary (some corpus) allow split).processIndex ∘ fun w =>
            (alookup w (mkWordVocabulary (some corpus) allow split).words).getD 0)
          = s.map id := List.map_congr_left hback
        _ = s := List.map_id s
  · intro ig igx chars s hs
    have hTI : (mkCharVocabulary (some chars) ig igx).to_index
        = mkToIndex (charOrder ig igx chars) 0 := rfl
    have hFI : (mkCharVocabulary (some chars) ig igx).from_index
        = mkFromIndex (charOrder ig igx chars) 0 := rfl
    have hnd := nodup_charOrder ig igx chars
    refine ⟨s.data.map (fun c =>
      (alookup (PyKey.kChar c) (mkCharVocabulary (some chars) ig igx).to_index).getD 0),
      ?_, ?_⟩
    · unfold CharVocabulary.strToInd
      apply mapM_except_ok
      intro c hc
      obtain ⟨i, hi⟩ := Option.isSome_iff_exists.mp (hs c hc)
      rw [hi]
      simp [hi]
    · unfold CharVocabulary.indToStr
      have hmm : (s.data.map (fun c =>
          (alookup (PyKey.kChar c) (mkCharVocabulary (some chars) ig igx).to_index).getD
            0)).mapM (fun i => (match alookup i
              (mkCharVocabulary (some chars) ig igx).from_index with
            | some (PyKey.kChar c) => .ok c
            | some (PyKey.kNat _) => .error .typeError
            | none => .error .keyError : Except VocabError Char))
          = .ok ((s.data.map (fun c =>
              (alookup (PyKey.kChar c)
                (mkCharVocabulary (some chars) ig igx).to_index).getD 0)).map
            (fun i => (match alookup i
                (mkCharVocabulary (some chars) ig igx).from_index with
              | some (PyKey.kChar c) => c
              | _ => 'a'))) := by
        apply mapM_except_ok
        intro i hi
        obtain ⟨c, hcmem, hceq⟩ := List.mem_map.mp hi
        obtain ⟨j, hj⟩ := Option.isSome_iff_exists.mp (hs c hcmem)
        have hieq : i = j := by rw [← hceq, hj]; rfl
        have hwa : alookup (PyKey.kChar c) (mkToIndex (charOrder ig igx chars) 0)
            = some j := by rw [← hTI]; exact hj
        have hinv := charAssoc_inverse hnd hwa
        rw [hieq, hFI, hinv]
      rw [hmm]
      show Except.ok (String.mk _) = Except.ok s
      refine congrArg Except.ok ?_
      rw [List.map_map]
      have hback : ∀ c ∈ s.data, ((fun i => (match alookup i
          (mkCharVocabulary (some chars) ig igx).from_index with
            | some (PyKey.kChar c) => c
            | _ => 'a')) ∘ (fun c =>
          (alookup (PyKey.kChar c)
            (mkCharVocabulary (some chars) ig igx).to_index).getD 0)) c = c := by
        intro c hcmem
        obtain ⟨j, hj⟩ := Option.isSome_iff_exists.mp (hs c hcmem)
        have hwa : alookup (PyKey.kChar c) (mkToIndex (charOrder ig igx chars) 0)
            = some j := by rw [← hTI]; exact hj
        have hinv := charAssoc_inverse hnd hwa
        show (match alookup ((alookup (PyKey.kChar c)
            (mkCharVocabulary (some chars) ig igx).to_index).getD 0)
            (mkCharVocabulary (some chars) ig igx).from_index with
          | some (PyKey.kChar c) => c
          | _ => 'a') = c
        rw [hj, hFI]
        show (match alookup j (mkFromIndex (charOrder ig igx chars) 0) with
          | some (PyKey.kChar c) => c
          | _ => 'a') = c
        rw [hinv]
      have : s.data.map ((fun i => (match alookup i
          (mkCharVocabulary (some chars) ig igx).from_index with
            | some (PyKey.kChar c) => c
            | _ => 'a')) ∘ (fun c =>
          (alookup (PyKey.kChar c)
            (mkCharVocabulary (some chars) ig igx).to_index).getD 0))
          = s.data.map id := List.map_congr_left hback
      rw [this, List.map_id]

/-- Witness for C6 (amended): the vocabulary over `[["a", "b"]]` round-trips
the sentence `["b", "a"]`, and the character vocabulary over `{a, b, c}`
round-trips the string `"cab"`. -/
theorem c6_roundtrip_amended_witness :
    (∃ ids : List Int,
      (mkWordVocabulary (some [["a", "b"]]) false true).sentenceToIndices ["b", "a"]
        = .ok (ids.map some) ∧
      (mkWordVocabulary (some [["a", "b"]]) false true).indicesToSentence ids
        = .ok ["b", "a"]) ∧
    (∃ ids : List Nat,
      (mkCharVocabulary (some [.kChar 'a', .kChar 'b', .kChar 'c']) none 0).strToInd "cab"
        = .ok ids ∧
      (mkCharVocabulary (some [.kChar 'a', .kChar 'b', .kChar 'c']) none 0).indToStr ids
        = .ok "cab") :=
  ⟨c6_roundtrip_amended.1 [["a", "b"]] false true ["b", "a"] (by decide) (by decide),
   c6_roundtrip_amended.2 none 0 [.kChar 'a', .kChar 'b', .kChar 'c'] "cab" (by decide)⟩

end TreeReg
